import Mathlib

/-!
Verification of the expression preprocessing and sandboxed evaluation core of
the scientific-calculator program (`gh.py`).

The development shallowly embeds, from the source:
* the preprocessor of `safe_eval` (glyph substitutions `×`, `÷`, `^`, `π` and the
  two percent regular-expression rewrites, lines 44-53),
* the allow-list `ALLOWED_NAMES` (lines 25-37), the per-call evaluation namespace
  with its angle-mode trig overlays (lines 55-76), the `co_names` identifier check
  (lines 79-83), and the evaluation of the compiled expression (line 83),
* the error-message discrimination of `SciCalculator.on_button` (lines 247-250).

Numeric semantics are embedded over an arbitrary `Field` carrying a library of
mathematical constants and functions (`MathLib`).  Two instantiations are used:
`ratLib : MathLib ℚ` is exact on the rational-arithmetic fragment and fully
executable, and `realLib : MathLib ℝ` gives the idealized real-number semantics
of the floating-point library, under which the "within floating tolerance"
statements of the specification hold exactly.

All recursive scans are defined with explicit fuel so that every definition is
executable and reduces inside the kernel.
-/

namespace CalcCore

/-- The two angle modes of `safe_eval` (`'rad'` / `'deg'`). -/
inductive AngleMode
  | rad
  | deg
deriving DecidableEq, Repr

/-- The classified failure kinds a call of `safe_eval` can raise.
`synErr` models `SyntaxError` from `compile`, `nameErr` the `NameError`
raised by the identifier check (or by a runtime name lookup miss), `zeroDiv`
models `ZeroDivisionError`, `domainErr` models `ValueError` from the math
functions, `overflowErr` models `OverflowError`, `typeErr` models `TypeError`,
and `attrErr` models `AttributeError`. -/
inductive EvalErr
  | synErr
  | nameErr (n : String)
  | zeroDiv
  | domainErr (msg : String)
  | overflowErr
  | typeErr
  | attrErr
deriving DecidableEq, Repr

/-! ## Preprocessor (source lines 44-53)

The glyph substitutions are `str.replace` over the whole string; the percent
rewrites are `re.sub` with the patterns

* rule 1: `(?P<a>\d+(?:\.\d+)?)[ \t]*%[ \t]*(?=(\d+(?:\.\d+)?|\()) -> (a/100)*`
* rule 2: `(?P<a>\d+(?:\.\d+)?)\s*% -> (a/100)`

`re.sub` scans left to right, replaces each leftmost non-overlapping match and
continues after it; for these patterns greedy matching of `\d+`, the optional
fractional part and the whitespace classes coincides with the backtracking
semantics (any shorter choice makes the following mandatory character fail), so
the deterministic greedy matchers below are exact. -/

/-- ASCII decimal digit, the `\d` class on the calculator's input alphabet. -/
def isDigitC (c : Char) : Bool := c.isDigit

/-- The `[ \t]` class. -/
def isSpaceTab (c : Char) : Bool := c = ' ' || c = '\t'

/-- The Python `\s` class: space, tab, newline, carriage return,
vertical tab, form feed. -/
def isPyWs (c : Char) : Bool :=
  c = ' ' || c = '\t' || c = '\n' || c = '\r' || c = '\x0b' || c = '\x0c'

/-- `str.replace` of the single character `a` by the string `b`. -/
def rep (a : Char) (b : List Char) : List Char → List Char
  | [] => []
  | c :: cs => (if c = a then b else [c]) ++ rep a b cs

/-- Greedy match of the optional fractional part `(?:\.\d+)?` at the head of
`t`: the matched part (empty, or a dot followed by at least one digit) and the
remainder. -/
def numFrac (t : List Char) : List Char × List Char :=
  match t with
  | [] => ([], [])
  | x :: r =>
    if x = '.' then
      if (r.takeWhile isDigitC).isEmpty then ([], x :: r)
      else ('.' :: r.takeWhile isDigitC, r.dropWhile isDigitC)
    else ([], x :: r)

/-- Greedy match of `\d+(?:\.\d+)?` at the head of `l`: returns the matched
literal and the remainder, or `none` if `l` does not start with a digit. -/
def matchNum (l : List Char) : Option (List Char × List Char) :=
  if (l.takeWhile isDigitC).isEmpty then none
  else some (l.takeWhile isDigitC ++ (numFrac (l.dropWhile isDigitC)).1,
             (numFrac (l.dropWhile isDigitC)).2)

/-- The part of the rule-2 match after the numeric literal: optional
whitespace and the `%` sign.  A rule-2 match at a position succeeds exactly
when the continuation after the greedy numeral does, independently of the
digits of the literal. -/
def r2Cont (t : List Char) : Option (List Char) :=
  match (numFrac t).2.dropWhile isPyWs with
  | [] => none
  | x :: rest => if x = '%' then some rest else none

/-- Greedy match of rule 1, `\d+(?:\.\d+)?[ \t]*%[ \t]*(?=\d|\()`, at the head
of `l`: returns the literal and the remainder after the consumed part
(the lookahead is not consumed). -/
def r1match (l : List Char) : Option (List Char × List Char) :=
  match matchNum l with
  | none => none
  | some (a, r) =>
    match r.dropWhile isSpaceTab with
    | [] => none
    | x :: r2 =>
      if x = '%' then
        match r2.dropWhile isSpaceTab with
        | [] => none
        | c :: r3 => if isDigitC c || c = '(' then some (a, c :: r3) else none
      else none

/-- Greedy match of rule 2, `\d+(?:\.\d+)?\s*%`, at the head of `l`. -/
def r2match (l : List Char) : Option (List Char × List Char) :=
  match matchNum l with
  | none => none
  | some (a, r) =>
    match r.dropWhile isPyWs with
    | [] => none
    | x :: rest => if x = '%' then some (a, rest) else none

/-- The characters `/100)*` appended to the literal by the rule-1 replacement. -/
def repl1Tail : List Char := ['/', '1', '0', '0', ')', '*']

/-- The characters `/100)` appended to the literal by the rule-2 replacement. -/
def repl2Tail : List Char := ['/', '1', '0', '0', ')']

/-- The `re.sub` scan for rule 1, with explicit fuel. -/
def sub1F : Nat → List Char → List Char
  | 0, l => l
  | _ + 1, [] => []
  | fuel + 1, c :: cs =>
    match r1match (c :: cs) with
    | some (a, rest) => '(' :: (a ++ repl1Tail ++ sub1F fuel rest)
    | none => c :: sub1F fuel cs

/-- The `re.sub` scan for rule 2, with explicit fuel. -/
def sub2F : Nat → List Char → List Char
  | 0, l => l
  | _ + 1, [] => []
  | fuel + 1, c :: cs =>
    match r2match (c :: cs) with
    | some (a, rest) => '(' :: (a ++ repl2Tail ++ sub2F fuel rest)
    | none => c :: sub2F fuel cs

/-- `re.sub` of rule 1 over the whole string. -/
def sub1 (l : List Char) : List Char := sub1F l.length l

/-- `re.sub` of rule 2 over the whole string. -/
def sub2 (l : List Char) : List Char := sub2F l.length l

/-- The glyph substitutions of lines 44-46, in source order. -/
def glyphs (l : List Char) : List Char :=
  rep 'π' ['p', 'i'] (rep '^' ['*', '*'] (rep '÷' ['/'] (rep '×' ['*'] l)))

/-- The whole preprocessor of `safe_eval` (lines 44-53), on character lists. -/
def preprocessL (l : List Char) : List Char := sub2 (sub1 (glyphs l))

/-- The whole preprocessor of `safe_eval` (lines 44-53). -/
def preprocess (s : String) : String := String.mk (preprocessL s.data)

/-! ## Expression syntax and the compile step (line 79)

`compile(expr, '<string>', 'eval')` is modelled by a parser into an abstract
syntax tree covering the expression fragment the calculator works with:
numeric literals (without exponent notation), single-quoted string literals,
identifiers, attribute access, calls, parenthesisation, unary `+`/`-`, and the
binary operators `+ - * / % **` with Python's precedence (power is
right-associative and binds more tightly than unary minus on its left).
A failure of the parser models `SyntaxError`. -/

/-- Abstract syntax of the compiled expression. -/
inductive Ast
  | num (q : ℚ)
  | str (s : String)
  | name (n : String)
  | pos (a : Ast)
  | neg (a : Ast)
  | add (a b : Ast)
  | subOp (a b : Ast)
  | mul (a b : Ast)
  | div (a b : Ast)
  | modOp (a b : Ast)
  | pow (a b : Ast)
  | call (f : Ast) (args : List Ast)
  | attrGet (a : Ast) (fld : String)
deriving Repr

/-- Identifier start character: letter or underscore. -/
def isIdentStart (c : Char) : Bool := c.isAlpha || c = '_'

/-- Identifier continuation character. -/
def isIdentCont (c : Char) : Bool := c.isAlpha || c.isDigit || c = '_'

/-- Skip spaces and tabs between tokens. -/
def skipST (l : List Char) : List Char := l.dropWhile isSpaceTab

/-- Decimal value of a digit string. -/
def digitsToNat (l : List Char) : Nat := l.foldl (fun a c => 10 * a + (c.toNat - 48)) 0

/-- Parse a decimal numeric literal (`123`, `1.5`, `1.`, `.5`) into its exact
rational value. -/
def numLit (l : List Char) : Option (ℚ × List Char) :=
  let ds := l.takeWhile isDigitC
  if ds.isEmpty then
    match l with
    | '.' :: r2 =>
      let fs := r2.takeWhile isDigitC
      if fs.isEmpty then none
      else some ((digitsToNat fs : ℚ) / (10 : ℚ) ^ fs.length, r2.dropWhile isDigitC)
    | _ => none
  else
    match l.dropWhile isDigitC with
    | '.' :: r2 =>
      let fs := r2.takeWhile isDigitC
      some ((digitsToNat ds : ℚ) + (digitsToNat fs : ℚ) / (10 : ℚ) ^ fs.length,
            r2.dropWhile isDigitC)
    | r => some ((digitsToNat ds : ℚ), r)

mutual

/-- Full expression: additive level. -/
def pExpr : Nat → List Char → Option (Ast × List Char)
  | 0, _ => none
  | fuel + 1, l => do
    let (a, r) ← pTerm fuel l
    pAddLoop fuel a r

/-- Left-associative chain of `+` and `-`. -/
def pAddLoop : Nat → Ast → List Char → Option (Ast × List Char)
  | 0, _, _ => none
  | fuel + 1, a, l =>
    match skipST l with
    | '+' :: r => do
      let (b, r2) ← pTerm fuel r
      pAddLoop fuel (.add a b) r2
    | '-' :: r => do
      let (b, r2) ← pTerm fuel r
      pAddLoop fuel (.subOp a b) r2
    | _ => some (a, l)

/-- Multiplicative level. -/
def pTerm : Nat → List Char → Option (Ast × List Char)
  | 0, _ => none
  | fuel + 1, l => do
    let (a, r) ← pFactor fuel l
    pMulLoop fuel a r

/-- Left-associative chain of `*`, `/` and `%`. -/
def pMulLoop : Nat → Ast → List Char → Option (Ast × List Char)
  | 0, _, _ => none
  | fuel + 1, a, l =>
    match skipST l with
    | '*' :: '*' :: _ => some (a, l)
    | '*' :: r => do
      let (b, r2) ← pFactor fuel r
      pMulLoop fuel (.mul a b) r2
    | '/' :: '/' :: _ => none
    | '/' :: r => do
      let (b, r2) ← pFactor fuel r
      pMulLoop fuel (.div a b) r2
    | '%' :: r => do
      let (b, r2) ← pFactor fuel r
      pMulLoop fuel (.modOp a b) r2
    | _ => some (a, l)

/-- Unary `+`/`-` level. -/
def pFactor : Nat → List Char → Option (Ast × List Char)
  | 0, _ => none
  | fuel + 1, l =>
    match skipST l with
    | '+' :: r => do
      let (a, r2) ← pFactor fuel r
      some (.pos a, r2)
    | '-' :: r => do
      let (a, r2) ← pFactor fuel r
      some (.neg a, r2)
    | _ => pPower fuel l

/-- Power level: `a ** factor`, right-associative. -/
def pPower : Nat → List Char → Option (Ast × List Char)
  | 0, _ => none
  | fuel + 1, l => do
    let (a, r) ← pPostfixE fuel l
    match skipST r with
    | '*' :: '*' :: r2 => do
      let (b, r3) ← pFactor fuel r2
      some (.pow a b, r3)
    | _ => some (a, r)

/-- Atom followed by call / attribute trailers. -/
def pPostfixE : Nat → List Char → Option (Ast × List Char)
  | 0, _ => none
  | fuel + 1, l => do
    let (a, r) ← pAtom fuel l
    pTrailers fuel a r

/-- Zero or more `(args)` or `.ident` trailers. -/
def pTrailers : Nat → Ast → List Char → Option (Ast × List Char)
  | 0, _, _ => none
  | fuel + 1, a, l =>
    match skipST l with
    | '(' :: r =>
      match skipST r with
      | ')' :: r2 => pTrailers fuel (.call a []) r2
      | _ => do
        let (args, r2) ← pArgs fuel r
        pTrailers fuel (.call a args) r2
    | '.' :: r =>
      let r' := skipST r
      match r' with
      | c :: _ =>
        if isIdentStart c then
          pTrailers fuel (.attrGet a (String.mk (r'.takeWhile isIdentCont)))
            (r'.dropWhile isIdentCont)
        else none
      | [] => none
    | _ => some (a, l)

/-- Comma-separated nonempty argument list, consuming the closing paren. -/
def pArgs : Nat → List Char → Option (List Ast × List Char)
  | 0, _ => none
  | fuel + 1, l => do
    let (a, r) ← pExpr fuel l
    match skipST r with
    | ',' :: r2 => do
      let (rest, r3) ← pArgs fuel r2
      some (a :: rest, r3)
    | ')' :: r2 => some ([a], r2)
    | _ => none

/-- Atom: number, string, identifier or parenthesised expression. -/
def pAtom : Nat → List Char → Option (Ast × List Char)
  | 0, _ => none
  | fuel + 1, l =>
    match skipST l with
    | [] => none
    | '(' :: r => do
      let (a, r2) ← pExpr fuel r
      match skipST r2 with
      | ')' :: r3 => some (a, r3)
      | _ => none
    | '\'' :: r =>
      match r.dropWhile (fun c => !(c = '\'')) with
      | '\'' :: r2 => some (.str (String.mk (r.takeWhile (fun c => !(c = '\'')))), r2)
      | _ => none
    | c :: r =>
      if isDigitC c || c = '.' then
        match numLit (c :: r) with
        | some (q, r2) => some (.num q, r2)
        | none => none
      else if isIdentStart c then
        some (.name (String.mk ((c :: r).takeWhile isIdentCont)),
              (c :: r).dropWhile isIdentCont)
      else none

end

/-- The compile step: parse the whole string as a single expression.
`none` models `SyntaxError`. -/
def parse (s : String) : Option Ast :=
  match pExpr (8 * (s.length + 1)) s.data with
  | some (a, r) => if (skipST r).isEmpty then some a else none
  | none => none

mutual

/-- `code.co_names`: every global name the compiled expression loads, in
first-use order — both plain identifier loads and attribute names appear
(CPython stores attribute names in `co_names` as well). -/
def coNames : Ast → List String
  | .num _ => []
  | .str _ => []
  | .name n => [n]
  | .pos a => coNames a
  | .neg a => coNames a
  | .add a b => coNames a ++ coNames b
  | .subOp a b => coNames a ++ coNames b
  | .mul a b => coNames a ++ coNames b
  | .div a b => coNames a ++ coNames b
  | .modOp a b => coNames a ++ coNames b
  | .pow a b => coNames a ++ coNames b
  | .call f args => coNames f ++ coNamesList args
  | .attrGet a fld => coNames a ++ [fld]

/-- `coNames` over an argument list. -/
def coNamesList : List Ast → List String
  | [] => []
  | a :: as => coNames a ++ coNamesList as

end

mutual

/-- Whether the expression contains an attribute access with attribute
name `f`. -/
def hasAttrName : Ast → String → Bool
  | .num _, _ => false
  | .str _, _ => false
  | .name _, _ => false
  | .pos a, f => hasAttrName a f
  | .neg a, f => hasAttrName a f
  | .add a b, f => hasAttrName a f || hasAttrName b f
  | .subOp a b, f => hasAttrName a f || hasAttrName b f
  | .mul a b, f => hasAttrName a f || hasAttrName b f
  | .div a b, f => hasAttrName a f || hasAttrName b f
  | .modOp a b, f => hasAttrName a f || hasAttrName b f
  | .pow a b, f => hasAttrName a f || hasAttrName b f
  | .call g args, f => hasAttrName g f || hasAttrNameList args f
  | .attrGet a fld, f => fld == f || hasAttrName a f

/-- `hasAttrName` over an argument list. -/
def hasAttrNameList : List Ast → String → Bool
  | [], _ => false
  | a :: as, f => hasAttrName a f || hasAttrNameList as f

end

/-! ## The allow-list and the per-call evaluation namespace (lines 25-37, 55-76)

`ALLOWED_NAMES` is a dict built from every non-dunder attribute of the `math`
module (Python 3.11) and then updated with ten explicit aliases; dict update
and assignment are modelled by appending to an association list whose lookup
takes the **last** binding of a key.  The numeric semantics of the library is a
parameter (`MathLib`); entries whose semantics no claim depends on are bound
through the abstract `other1`/`other2`/`otherC` fields, keyed by their own
name. -/

/-- A value bound in the evaluation namespace: a numeric constant, a unary
function, or a binary function. -/
inductive NameVal (α : Type)
  | const (x : α)
  | fn1 (f : α → Except EvalErr α)
  | fn2 (f : α → α → Except EvalErr α)

/-- The semantics of the mathematical library over a numeric carrier `α`.
The claim-relevant members of `math` are explicit fields; all remaining
entries of `dir(math)` are abstracted by `other1`/`other2`/`otherC`. -/
structure MathLib (α : Type) where
  piV : α
  eV : α
  sinF : α → Except EvalErr α
  cosF : α → Except EvalErr α
  tanF : α → Except EvalErr α
  asinF : α → Except EvalErr α
  acosF : α → Except EvalErr α
  atanF : α → Except EvalErr α
  radiansF : α → α
  degreesF : α → α
  sqrtF : α → Except EvalErr α
  lnF : α → Except EvalErr α
  log10F : α → Except EvalErr α
  factF : α → Except EvalErr α
  gammaF : α → Except EvalErr α
  powOp : α → α → Except EvalErr α
  modF : α → α → Except EvalErr α
  other1 : String → α → Except EvalErr α
  other2 : String → α → α → Except EvalErr α
  otherC : String → α

/-- Association-list lookup with dict semantics: the last binding of a key
wins (later `update`/assignment overrides earlier bindings). -/
def dictLookup {β : Type} (l : List (String × β)) (k : String) : Option β :=
  (l.reverse.find? (fun p => p.1 == k)).map Prod.snd

/-- The base dictionary comprehension of line 25:
`{k: getattr(math, k) for k in dir(math) if not k.startswith("__")}`
for the `math` module of Python 3.11, in `dir` (alphabetical) order.
Note `log` is bound here to the natural logarithm (`math.log`). -/
def mathEntries {α : Type} (M : MathLib α) : List (String × NameVal α) :=
  [("acos", .fn1 M.acosF), ("acosh", .fn1 (M.other1 "acosh")), ("asin", .fn1 M.asinF),
   ("asinh", .fn1 (M.other1 "asinh")), ("atan", .fn1 M.atanF),
   ("atan2", .fn2 (M.other2 "atan2")), ("atanh", .fn1 (M.other1 "atanh")),
   ("cbrt", .fn1 (M.other1 "cbrt")), ("ceil", .fn1 (M.other1 "ceil")),
   ("comb", .fn2 (M.other2 "comb")), ("copysign", .fn2 (M.other2 "copysign")),
   ("cos", .fn1 M.cosF), ("cosh", .fn1 (M.other1 "cosh")),
   ("degrees", .fn1 (fun x => .ok (M.degreesF x))), ("dist", .fn2 (M.other2 "dist")),
   ("e", .const M.eV), ("erf", .fn1 (M.other1 "erf")), ("erfc", .fn1 (M.other1 "erfc")),
   ("exp", .fn1 (M.other1 "exp")), ("exp2", .fn1 (M.other1 "exp2")),
   ("expm1", .fn1 (M.other1 "expm1")), ("fabs", .fn1 (M.other1 "fabs")),
   ("factorial", .fn1 M.factF), ("floor", .fn1 (M.other1 "floor")),
   ("fmod", .fn2 (M.other2 "fmod")), ("frexp", .fn1 (M.other1 "frexp")),
   ("fsum", .fn1 (M.other1 "fsum")), ("gamma", .fn1 M.gammaF),
   ("gcd", .fn2 (M.other2 "gcd")), ("hypot", .fn2 (M.other2 "hypot")),
   ("inf", .const (M.otherC "inf")), ("isclose", .fn2 (M.other2 "isclose")),
   ("isfinite", .fn1 (M.other1 "isfinite")), ("isinf", .fn1 (M.other1 "isinf")),
   ("isnan", .fn1 (M.other1 "isnan")), ("isqrt", .fn1 (M.other1 "isqrt")),
   ("lcm", .fn2 (M.other2 "lcm")), ("ldexp", .fn2 (M.other2 "ldexp")),
   ("lgamma", .fn1 (M.other1 "lgamma")), ("log", .fn1 M.lnF),
   ("log10", .fn1 M.log10F), ("log1p", .fn1 (M.other1 "log1p")),
   ("log2", .fn1 (M.other1 "log2")), ("modf", .fn1 (M.other1 "modf")),
   ("nan", .const (M.otherC "nan")), ("nextafter", .fn2 (M.other2 "nextafter")),
   ("perm", .fn2 (M.other2 "perm")), ("pi", .const M.piV),
   ("pow", .fn2 (M.other2 "pow")), ("prod", .fn1 (M.other1 "prod")),
   ("radians", .fn1 (fun x => .ok (M.radiansF x))),
   ("remainder", .fn2 (M.other2 "remainder")), ("sin", .fn1 M.sinF),
   ("sinh", .fn1 (M.other1 "sinh")), ("sqrt", .fn1 M.sqrtF), ("tan", .fn1 M.tanF),
   ("tanh", .fn1 (M.other1 "tanh")), ("tau", .const (M.otherC "tau")),
   ("trunc", .fn1 (M.other1 "trunc")), ("ulp", .fn1 (M.other1 "ulp"))]

/-- The explicit `ALLOWED_NAMES.update({...})` of lines 26-37, in source
order.  `ln` is bound to the natural logarithm, `log` to the base-10
logarithm (overriding the binding from `mathEntries`), `fact` to factorial. -/
def updateEntries {α : Type} (M : MathLib α) : List (String × NameVal α) :=
  [("pi", .const M.piV), ("e", .const M.eV), ("sqrt", .fn1 M.sqrtF),
   ("ln", .fn1 M.lnF), ("log", .fn1 M.log10F), ("fact", .fn1 M.factF),
   ("asin", .fn1 M.asinF), ("acos", .fn1 M.acosF), ("atan", .fn1 M.atanF),
   ("gamma", .fn1 M.gammaF)]

/-- `ALLOWED_NAMES` (lines 25-37). -/
def allowedNames {α : Type} (M : MathLib α) : List (String × NameVal α) :=
  mathEntries M ++ updateEntries M

/-- `make_forward` (lines 57-61): in degree mode the argument is converted
from degrees to radians before the underlying radian function is applied. -/
def mkForward {α : Type} (M : MathLib α) (mode : AngleMode)
    (f : α → Except EvalErr α) : α → Except EvalErr α :=
  match mode with
  | .deg => fun x => f (M.radiansF x)
  | .rad => fun x => f x

/-- `make_inverse` (lines 63-67): in degree mode the result of the underlying
radian function is converted from radians to degrees. -/
def mkInverse {α : Type} (M : MathLib α) (mode : AngleMode)
    (f : α → Except EvalErr α) : α → Except EvalErr α :=
  match mode with
  | .deg => fun x => (f x).map M.degreesF
  | .rad => fun x => f x

/-- `local_names` (lines 55-74): a copy of `ALLOWED_NAMES` with the six trig
entries overlaid by the angle-mode wrappers, in assignment order. -/
def localNames {α : Type} (M : MathLib α) (mode : AngleMode) :
    List (String × NameVal α) :=
  allowedNames M ++
    [("sin", .fn1 (mkForward M mode M.sinF)), ("cos", .fn1 (mkForward M mode M.cosF)),
     ("tan", .fn1 (mkForward M mode M.tanF)), ("asin", .fn1 (mkInverse M mode M.asinF)),
     ("acos", .fn1 (mkInverse M mode M.acosF)), ("atan", .fn1 (mkInverse M mode M.atanF))]

/-- `safe_builtin_names = {'abs', 'round'}` (line 76). -/
def safeBuiltinNames : List String := ["abs", "round"]

/-! ## Evaluation (line 83)

`eval(code, {"__builtins__": {}}, local_names)` evaluates the compiled
expression with `local_names` as the only populated scope: a name lookup that
misses `local_names` raises `NameError` at run time (the globals contain only
an empty `__builtins__`, so even `abs`/`round`, although accepted by the
identifier check, are not actually resolvable).  Values are numbers of the
carrier `α`; the string-typed and attribute-typed corners that no allow-listed
computation can reach yield `typeErr`/`attrErr`. -/

section Evaluation

variable {α : Type} [Field α] [DecidableEq α]

mutual

/-- Evaluation of a compiled expression under the namespace `ns`. -/
def evalAst (M : MathLib α) (ns : List (String × NameVal α)) : Ast → Except EvalErr α
  | .num q => .ok (q : α)
  | .str _ => .error .typeErr
  | .name n =>
    match dictLookup ns n with
    | some (.const x) => .ok x
    | some _ => .error .typeErr
    | none => .error (.nameErr n)
  | .pos a => evalAst M ns a
  | .neg a => (evalAst M ns a).map (fun x => -x)
  | .add a b => do
    let x ← evalAst M ns a
    let y ← evalAst M ns b
    .ok (x + y)
  | .subOp a b => do
    let x ← evalAst M ns a
    let y ← evalAst M ns b
    .ok (x - y)
  | .mul a b => do
    let x ← evalAst M ns a
    let y ← evalAst M ns b
    .ok (x * y)
  | .div a b => do
    let x ← evalAst M ns a
    let y ← evalAst M ns b
    if y = 0 then .error .zeroDiv else .ok (x / y)
  | .modOp a b => do
    let x ← evalAst M ns a
    let y ← evalAst M ns b
    M.modF x y
  | .pow a b => do
    let x ← evalAst M ns a
    let y ← evalAst M ns b
    M.powOp x y
  | .call f args =>
    match f with
    | .name n =>
      match dictLookup ns n with
      | none => .error (.nameErr n)
      | some (.const _) => .error .typeErr
      | some (.fn1 g) => do
        let vs ← evalArgs M ns args
        match vs with
        | [x] => g x
        | _ => .error .typeErr
      | some (.fn2 g) => do
        let vs ← evalArgs M ns args
        match vs with
        | [x, y] => g x y
        | _ => .error .typeErr
    | _ => .error .typeErr
  | .attrGet a _ => do
    let _ ← evalAst M ns a
    .error .attrErr

/-- Left-to-right evaluation of an argument list. -/
def evalArgs (M : MathLib α) (ns : List (String × NameVal α)) :
    List Ast → Except EvalErr (List α)
  | [] => .ok []
  | a :: as => do
    let x ← evalAst M ns a
    let xs ← evalArgs M ns as
    .ok (x :: xs)

end

/-- `safe_eval` (lines 39-85): preprocess, compile, check every name of
`co_names` against the namespace keys and the two safe builtins, and only
then evaluate. -/
def safeEval (M : MathLib α) (expr : String) (mode : AngleMode) : Except EvalErr α :=
  match parse (preprocess expr) with
  | none => .error .synErr
  | some ast =>
    let ns := localNames M mode
    match (coNames ast).find?
        (fun n => (dictLookup ns n).isNone && !(safeBuiltinNames.contains n)) with
    | some n => .error (.nameErr n)
    | none => evalAst M ns ast

end Evaluation

/-- The detail text of a failure, modelling `str(e)` of the underlying
exception. -/
def errText : EvalErr → String
  | .synErr => "invalid syntax"
  | .nameErr n => "Use of '" ++ n ++ "' not allowed"
  | .zeroDiv => "division by zero"
  | .domainErr msg => msg
  | .overflowErr => "math range error"
  | .typeErr => "unsupported operand type"
  | .attrErr => "attribute error"

/-- The error presentation of `SciCalculator.on_button` (lines 247-250):
`ZeroDivisionError` gets its own dedicated message, every other failure is
shown generically with the underlying detail text. -/
def errorMessage : EvalErr → String
  | .zeroDiv => "Division by zero is not allowed."
  | e => "Invalid expression:\n" ++ errText e

/-! ## Instantiations

`ratLib` is the executable exact-arithmetic instantiation over `ℚ`: the field
operations, the division/modulo/power zero and domain checks, and the domain
checks of `sqrt`, `log`, `factorial` are exact; the numeric values of the
transcendental functions, which are not rational, are placeholder
approximations (claims about transcendental values are settled over `ℝ`).
`math.pi` and `math.e` are the exact rational values of the IEEE-754 doubles
the module exposes.

`realLib` is the idealized real-number instantiation over `ℝ`: the functions
are the exact real functions the floating-point library approximates, so
"within floating tolerance" statements of the specification hold exactly. -/

/-- Exact-rational instantiation of the library. -/
def ratLib : MathLib ℚ where
  piV := 884279719003555 / 281474976710656
  eV := 6121026514868073 / 2251799813685248
  sinF := fun _ => .ok 0
  cosF := fun _ => .ok 0
  tanF := fun _ => .ok 0
  asinF := fun x => if x < -1 ∨ 1 < x then .error (.domainErr "math domain error") else .ok 0
  acosF := fun x => if x < -1 ∨ 1 < x then .error (.domainErr "math domain error") else .ok 0
  atanF := fun _ => .ok 0
  radiansF := fun x => x * ((884279719003555 / 281474976710656) / 180)
  degreesF := fun x => x * (180 / (884279719003555 / 281474976710656))
  sqrtF := fun x => if x < 0 then .error (.domainErr "math domain error") else .ok (Rat.sqrt x)
  lnF := fun x => if x ≤ 0 then .error (.domainErr "math domain error") else .ok 0
  log10F := fun x => if x ≤ 0 then .error (.domainErr "math domain error") else .ok 0
  factF := fun x =>
    if x.den ≠ 1 then .error .typeErr
    else if x < 0 then .error (.domainErr "factorial() not defined for negative values")
    else .ok (Nat.factorial x.num.toNat : ℚ)
  gammaF := fun x =>
    if x ≤ 0 ∧ x.den = 1 then .error (.domainErr "math domain error") else .ok 0
  powOp := fun x y =>
    if y.den = 1 then
      if 0 ≤ y.num then .ok (x ^ y.num.toNat)
      else if x = 0 then .error .zeroDiv
      else .ok (x ^ y.num)
    else .ok 0
  modF := fun x y => if y = 0 then .error .zeroDiv else .ok (x - y * (⌊x / y⌋ : ℤ))
  other1 := fun _ _ => .ok 0
  other2 := fun _ _ _ => .ok 0
  otherC := fun _ => 0

section RealLib

open scoped Classical in
/-- Idealized real-number instantiation of the library. -/
noncomputable def realLib : MathLib ℝ where
  piV := Real.pi
  eV := Real.exp 1
  sinF := fun x => .ok (Real.sin x)
  cosF := fun x => .ok (Real.cos x)
  tanF := fun x => .ok (Real.tan x)
  asinF := fun x =>
    if x < -1 ∨ 1 < x then .error (.domainErr "math domain error") else .ok (Real.arcsin x)
  acosF := fun x =>
    if x < -1 ∨ 1 < x then .error (.domainErr "math domain error") else .ok (Real.arccos x)
  atanF := fun x => .ok (Real.arctan x)
  radiansF := fun x => x * (Real.pi / 180)
  degreesF := fun x => x * (180 / Real.pi)
  sqrtF := fun x => if x < 0 then .error (.domainErr "math domain error") else .ok (Real.sqrt x)
  lnF := fun x => if x ≤ 0 then .error (.domainErr "math domain error") else .ok (Real.log x)
  log10F := fun x =>
    if x ≤ 0 then .error (.domainErr "math domain error") else .ok (Real.logb 10 x)
  factF := fun x =>
    if ¬ ∃ n : ℤ, (n : ℝ) = x then .error .typeErr
    else if x < 0 then .error (.domainErr "factorial() not defined for negative values")
    else .ok (Nat.factorial ⌊x⌋.toNat : ℝ)
  gammaF := fun x =>
    if (∃ n : ℤ, (n : ℝ) = x) ∧ x ≤ 0 then .error (.domainErr "math domain error")
    else .ok (Real.Gamma x)
  powOp := fun x y =>
    if x = 0 ∧ y < 0 then .error .zeroDiv else .ok (Real.rpow x y)
  modF := fun x y => if y = 0 then .error .zeroDiv else .ok (x - y * (⌊x / y⌋ : ℤ))
  other1 := fun _ _ => .ok 0
  other2 := fun _ _ _ => .ok 0
  otherC := fun _ => 0

end RealLib

deriving instance DecidableEq for Except

/-! ## General lemmas about the evaluator -/

section EvalLemmas

variable {α : Type} [Field α] [DecidableEq α]

/-- When the compile step succeeds and the identifier check passes, `safe_eval`
is the evaluation of the compiled expression under the per-call namespace. -/
theorem safeEval_eq_evalAst (M : MathLib α) (mode : AngleMode) (s : String) (ast : Ast)
    (hp : parse (preprocess s) = some ast)
    (hchk : (coNames ast).find?
      (fun n => (dictLookup (localNames M mode) n).isNone &&
        !(safeBuiltinNames.contains n)) = none) :
    safeEval M s mode = evalAst M (localNames M mode) ast := by
  simp only [safeEval, hp, hchk]

/-- Evaluation of a one-argument call of an allow-listed unary function. -/
theorem evalAst_call1 (M : MathLib α) (ns : List (String × NameVal α)) (f : String)
    (g : α → Except EvalErr α) (arg : Ast) (v : α)
    (hf : dictLookup ns f = some (.fn1 g)) (hv : evalAst M ns arg = .ok v) :
    evalAst M ns (.call (.name f) [arg]) = g v := by
  simp only [evalAst, evalArgs, hf, hv]
  rfl

/-- A key is present in the dictionary exactly when it occurs among the keys. -/
theorem dictLookup_isSome_iff {β : Type} (l : List (String × β)) (k : String) :
    (dictLookup l k).isSome = true ↔ k ∈ l.map Prod.fst := by
  unfold dictLookup
  rcases h : l.reverse.find? (fun p => p.1 == k) with _ | p
  · simp only [h, Option.map_none', Option.isSome_none, Bool.false_eq_true, false_iff]
    intro hk
    obtain ⟨q, hq, he⟩ := List.mem_map.mp hk
    have hs : (l.reverse.find? (fun p => p.1 == k)).isSome :=
      List.find?_isSome.mpr ⟨q, List.mem_reverse.mpr hq, by simp [he]⟩
    rw [h] at hs
    simp at hs
  · simp only [h, Option.map_some', Option.isSome_some, true_iff]
    have hpk := List.find?_some h
    have hm := List.mem_of_find?_eq_some h
    exact List.mem_map.mpr ⟨p, List.mem_reverse.mp hm, by simpa using hpk⟩

omit [Field α] [DecidableEq α] in
/-- The key set of the per-call namespace does not depend on the library
semantics nor on the angle mode. -/
theorem localNames_keys_eq {β : Type} (M : MathLib α) (mode : AngleMode)
    (M' : MathLib β) (mode' : AngleMode) :
    (localNames M mode).map Prod.fst = (localNames M' mode').map Prod.fst := by
  cases mode <;> cases mode' <;> rfl

/-- If some element of the list satisfies the predicate, `find?` returns an
element satisfying it. -/
theorem exists_find?_eq_some {l : List String} {p : String → Bool}
    (h : ∃ x ∈ l, p x = true) : ∃ y, l.find? p = some y ∧ p y = true ∧ y ∈ l := by
  obtain ⟨x, hx, hpx⟩ := h
  have : (l.find? p).isSome := List.find?_isSome.mpr ⟨x, hx, hpx⟩
  obtain ⟨y, hy⟩ := Option.isSome_iff_exists.mp this
  exact ⟨y, hy, List.find?_some hy, List.mem_of_find?_eq_some hy⟩

omit [Field α] [DecidableEq α] in
/-- The Boolean predicate of the identifier check, in propositional form:
the name is not a key of the namespace and is not `abs` or `round`. -/
theorem badName_iff (ns : List (String × NameVal α)) (n : String) :
    ((dictLookup ns n).isNone && !(safeBuiltinNames.contains n)) = true ↔
      (dictLookup ns n = none ∧ n ≠ "abs" ∧ n ≠ "round") := by
  simp [safeBuiltinNames, Option.isNone_iff_eq_none, not_or]

/-- The engine behind the safety claims: if the compiled expression references
any identifier that is neither a key of the per-call namespace nor `abs` nor
`round`, `safe_eval` fails with a `NameError` about such an identifier, and
the parsed form is not evaluated (the result is the same for every library
semantics `M'`). -/
theorem safeEval_nameErr_of_bad (M : MathLib α) (mode : AngleMode) (s : String)
    (ast : Ast) (hp : parse (preprocess s) = some ast)
    (hbad : ∃ n ∈ coNames ast,
      dictLookup (localNames M mode) n = none ∧ n ≠ "abs" ∧ n ≠ "round") :
    ∃ m ∈ coNames ast,
      dictLookup (localNames M mode) m = none ∧ m ≠ "abs" ∧ m ≠ "round" ∧
      safeEval M s mode = .error (.nameErr m) := by
  obtain ⟨n, hn, hprop⟩ := hbad
  have hex : ∃ x ∈ coNames ast,
      (fun m => (dictLookup (localNames M mode) m).isNone &&
        !(safeBuiltinNames.contains m)) x = true :=
    ⟨n, hn, (badName_iff (localNames M mode) n).mpr hprop⟩
  obtain ⟨m, hfind, hpm, hm⟩ := exists_find?_eq_some hex
  obtain ⟨h1, h2, h3⟩ := (badName_iff (localNames M mode) m).mp hpm
  refine ⟨m, hm, h1, h2, h3, ?_⟩
  simp only [safeEval, hp, hfind]

end EvalLemmas

mutual

/-- An attribute name occurring in the expression occurs in `co_names`. -/
theorem hasAttrName_mem_coNames :
    ∀ (a : Ast) (f : String), hasAttrName a f = true → f ∈ coNames a
  | .num _, _, h => by simp [hasAttrName] at h
  | .str _, _, h => by simp [hasAttrName] at h
  | .name _, _, h => by simp [hasAttrName] at h
  | .pos a, f, h => hasAttrName_mem_coNames a f h
  | .neg a, f, h => hasAttrName_mem_coNames a f h
  | .add a b, f, h => by
    rcases (Bool.or_eq_true _ _) ▸ h with h1 | h2
    · exact List.mem_append_left _ (hasAttrName_mem_coNames a f h1)
    · exact List.mem_append_right _ (hasAttrName_mem_coNames b f h2)
  | .subOp a b, f, h => by
    rcases (Bool.or_eq_true _ _) ▸ h with h1 | h2
    · exact List.mem_append_left _ (hasAttrName_mem_coNames a f h1)
    · exact List.mem_append_right _ (hasAttrName_mem_coNames b f h2)
  | .mul a b, f, h => by
    rcases (Bool.or_eq_true _ _) ▸ h with h1 | h2
    · exact List.mem_append_left _ (hasAttrName_mem_coNames a f h1)
    · exact List.mem_append_right _ (hasAttrName_mem_coNames b f h2)
  | .div a b, f, h => by
    rcases (Bool.or_eq_true _ _) ▸ h with h1 | h2
    · exact List.mem_append_left _ (hasAttrName_mem_coNames a f h1)
    · exact List.mem_append_right _ (hasAttrName_mem_coNames b f h2)
  | .modOp a b, f, h => by
    rcases (Bool.or_eq_true _ _) ▸ h with h1 | h2
    · exact List.mem_append_left _ (hasAttrName_mem_coNames a f h1)
    · exact List.mem_append_right _ (hasAttrName_mem_coNames b f h2)
  | .pow a b, f, h => by
    rcases (Bool.or_eq_true _ _) ▸ h with h1 | h2
    · exact List.mem_append_left _ (hasAttrName_mem_coNames a f h1)
    · exact List.mem_append_right _ (hasAttrName_mem_coNames b f h2)
  | .call g args, f, h => by
    rcases (Bool.or_eq_true _ _) ▸ h with h1 | h2
    · exact List.mem_append_left _ (hasAttrName_mem_coNames g f h1)
    · exact List.mem_append_right _ (hasAttrNameList_mem_coNamesList args f h2)
  | .attrGet a fld, f, h => by
    rcases (Bool.or_eq_true _ _) ▸ h with h1 | h2
    · exact List.mem_append_right _ (by simp [beq_iff_eq.mp h1])
    · exact List.mem_append_left _ (hasAttrName_mem_coNames a f h2)

/-- `hasAttrName_mem_coNames` for argument lists. -/
theorem hasAttrNameList_mem_coNamesList :
    ∀ (l : List Ast) (f : String), hasAttrNameList l f = true → f ∈ coNamesList l
  | [], _, h => by simp [hasAttrNameList] at h
  | a :: as, f, h => by
    rcases (Bool.or_eq_true _ _) ▸ h with h1 | h2
    · exact List.mem_append_left _ (hasAttrName_mem_coNames a f h1)
    · exact List.mem_append_right _ (hasAttrNameList_mem_coNamesList as f h2)

end

/-- A generic-message string is never the dedicated division-by-zero
message: the two differ already in their first character. -/
theorem invalid_ne_divMsg (s : String) :
    "Invalid expression:\n" ++ s ≠ "Division by zero is not allowed." := by
  intro h
  have hd := congrArg (fun t => t.data.head?) h
  simp [String.data_append] at hd

/-! ## Lemmas about the preprocessor

The two `re.sub` scans are analysed through decomposition lemmas for the
greedy matchers and through the key invariant that the output of the rule-2
scan contains no position where rule 2 (hence also rule 1) can match, which
yields idempotence. -/

section PreLemmas

/-- `takeWhile` and `dropWhile` through an append whose first part satisfies
the predicate and whose second part does not start with it. -/
theorem takeWhile_dropWhile_app (p : Char → Bool) :
    ∀ a b : List Char, (∀ c ∈ a, p c = true) →
      (∀ x xs, b = x :: xs → p x = false) →
      (a ++ b).takeWhile p = a ∧ (a ++ b).dropWhile p = b
  | [], b, _, hb => by
    cases b with
    | nil => exact ⟨rfl, rfl⟩
    | cons x xs =>
      simp [List.takeWhile_cons, List.dropWhile_cons, hb x xs rfl]
  | c :: a', b, ha, hb => by
    have hc : p c = true := ha c (List.mem_cons_self c a')
    have ih := takeWhile_dropWhile_app p a' b
      (fun d hd => ha d (List.mem_cons_of_mem c hd)) hb
    simp [List.takeWhile_cons, List.dropWhile_cons, hc, ih.1, ih.2]

/-- The head of a `dropWhile` result does not satisfy the predicate. -/
theorem dropWhile_head_false (p : Char → Bool) :
    ∀ (l : List Char) (x : Char) (xs : List Char),
      l.dropWhile p = x :: xs → p x = false
  | [], x, xs, h => by simp at h
  | c :: cs, x, xs, h => by
    rw [List.dropWhile_cons] at h
    cases hpc : p c with
    | true =>
      rw [hpc] at h
      simp only [if_true] at h
      exact dropWhile_head_false p cs x xs h
    | false =>
      rw [hpc] at h
      simp only [Bool.false_eq_true, if_false] at h
      cases h
      exact hpc

/-- Space or tab is Python whitespace. -/
theorem spaceTab_isPyWs (c : Char) (h : isSpaceTab c = true) : isPyWs c = true := by
  simp only [isSpaceTab, Bool.or_eq_true, decide_eq_true_eq] at h
  rcases h with h | h <;> simp [isPyWs, h]

/-- Decomposition of the optional fractional part. -/
theorem numFrac_append (t : List Char) : (numFrac t).1 ++ (numFrac t).2 = t := by
  match t with
  | [] => rfl
  | x :: r =>
    by_cases hx : x = '.'
    · subst hx
      by_cases he : (r.takeWhile isDigitC).isEmpty = true
      · simp [numFrac, he]
      · simp [numFrac, he, List.takeWhile_append_dropWhile]
    · simp [numFrac, hx]

/-- The fractional part consists of digits and the dot. -/
theorem numFrac_alphabet (t : List Char) :
    ∀ c ∈ (numFrac t).1, isDigitC c = true ∨ c = '.' := by
  match t with
  | [] => intro c hc; simp [numFrac] at hc
  | x :: r =>
    by_cases hx : x = '.'
    · subst hx
      by_cases he : (r.takeWhile isDigitC).isEmpty = true
      · intro c hc
        simp [numFrac, he] at hc
      · intro c hc
        simp only [numFrac, he, if_true, if_false, Bool.false_eq_true] at hc
        rcases List.mem_cons.mp hc with rfl | hc
        · exact Or.inr rfl
        · exact Or.inl (List.mem_takeWhile_imp hc)
    · intro c hc
      simp [numFrac, hx] at hc

/-- If the input does not start with a digit, neither does the remainder
after the fractional part. -/
theorem numFrac_snd_head (t : List Char)
    (ht : ∀ x xs, t = x :: xs → isDigitC x = false) :
    ∀ x xs, (numFrac t).2 = x :: xs → isDigitC x = false := by
  match t with
  | [] => intro x xs h; simp [numFrac] at h
  | z :: r =>
    by_cases hz : z = '.'
    · subst hz
      by_cases he : (r.takeWhile isDigitC).isEmpty = true
      · intro x xs h
        simp only [numFrac, he, if_true] at h
        exact ht x xs h
      · intro x xs h
        simp only [numFrac, he, Bool.false_eq_true, if_false, if_true] at h
        exact dropWhile_head_false isDigitC _ x xs h
    · intro x xs h
      simp only [numFrac, hz, if_false] at h
      exact ht x xs h

/-- The greedy numeral matcher on a digit run followed by a non-digit
continuation. -/
theorem matchNum_digits_append (d t : List Char) (hne : d ≠ [])
    (hd : ∀ c ∈ d, isDigitC c = true)
    (ht : ∀ x xs, t = x :: xs → isDigitC x = false) :
    matchNum (d ++ t) = some (d ++ (numFrac t).1, (numFrac t).2) := by
  obtain ⟨h1, h2⟩ := takeWhile_dropWhile_app isDigitC d t hd ht
  unfold matchNum
  rw [h1, h2]
  simp [List.isEmpty_iff, hne]

/-- A successful numeral match decomposes the input. -/
theorem matchNum_decomp {l a r : List Char} (h : matchNum l = some (a, r)) :
    l = a ++ r ∧ a ≠ [] ∧ (∀ c ∈ a, isDigitC c = true ∨ c = '.') ∧
      (∀ x xs, r = x :: xs → isDigitC x = false) := by
  unfold matchNum at h
  by_cases he : (l.takeWhile isDigitC).isEmpty = true
  · rw [if_pos he] at h
    simp at h
  · rw [if_neg he] at h
    rw [Option.some.injEq, Prod.mk.injEq] at h
    obtain ⟨ha, hr⟩ := h
    have hdw : ∀ x xs, l.dropWhile isDigitC = x :: xs → isDigitC x = false :=
      fun x xs hx => dropWhile_head_false isDigitC l x xs hx
    refine ⟨?_, ?_, ?_, ?_⟩
    · rw [← ha, ← hr, List.append_assoc, numFrac_append,
        List.takeWhile_append_dropWhile]
    · rw [← ha]
      intro hnil
      rcases List.append_eq_nil.mp hnil with ⟨h1, _⟩
      rw [h1] at he
      simp at he
    · rw [← ha]
      intro c hc
      rcases List.mem_append.mp hc with hc | hc
      · exact Or.inl (List.mem_takeWhile_imp hc)
      · exact numFrac_alphabet _ c hc
    · rw [← hr]
      exact numFrac_snd_head _ hdw

/-- The rule-2 matcher fails when the input does not start with a digit. -/
theorem r2match_none_of_head (c : Char) (l : List Char) (hc : isDigitC c = false) :
    r2match (c :: l) = none := by
  unfold r2match matchNum
  rw [List.takeWhile_cons, hc]
  simp

/-- The rule-2 matcher fails on the empty input. -/
theorem r2match_nil : r2match [] = none := rfl

/-- On a digit run followed by a non-digit continuation, a failing
continuation means the rule-2 matcher fails. -/
theorem r2match_digits_append_none (d t : List Char) (hne : d ≠ [])
    (hd : ∀ c ∈ d, isDigitC c = true)
    (ht : ∀ x xs, t = x :: xs → isDigitC x = false)
    (hc : r2Cont t = none) :
    r2match (d ++ t) = none := by
  unfold r2Cont at hc
  unfold r2match
  rw [matchNum_digits_append d t hne hd ht]
  show (match (numFrac t).2.dropWhile isPyWs with
        | [] => none
        | x :: rest =>
          if x = '%' then some (d ++ (numFrac t).1, rest) else none) = none
  rcases hw : (numFrac t).2.dropWhile isPyWs with _ | ⟨x, xs⟩
  · rfl
  · rw [hw] at hc
    by_cases hx : x = '%'
    · simp [hx] at hc
    · simp [hx]

/-- On a digit run followed by a non-digit continuation, a succeeding
continuation gives the rule-2 match explicitly. -/
theorem r2match_digits_append_some (d t rest : List Char) (hne : d ≠ [])
    (hd : ∀ c ∈ d, isDigitC c = true)
    (ht : ∀ x xs, t = x :: xs → isDigitC x = false)
    (hc : r2Cont t = some rest) :
    r2match (d ++ t) = some (d ++ (numFrac t).1, rest) := by
  unfold r2Cont at hc
  unfold r2match
  rw [matchNum_digits_append d t hne hd ht]
  show (match (numFrac t).2.dropWhile isPyWs with
        | [] => none
        | x :: rest =>
          if x = '%' then some (d ++ (numFrac t).1, rest) else none) =
      some (d ++ (numFrac t).1, rest)
  rcases hw : (numFrac t).2.dropWhile isPyWs with _ | ⟨x, xs⟩
  · rw [hw] at hc
    simp at hc
  · rw [hw] at hc
    by_cases hx : x = '%'
    · simp only [hx, if_true, if_pos] at hc
      simp only [Option.some.injEq] at hc
      simp [hx, hc]
    · simp [hx] at hc

/-- Full decomposition of a successful rule-2 match. -/
theorem r2match_decomp {l a rest : List Char} (h : r2match l = some (a, rest)) :
    ∃ w, (∀ c ∈ w, isPyWs c = true) ∧ l = a ++ (w ++ '%' :: rest) ∧
      a ≠ [] ∧ (∀ c ∈ a, isDigitC c = true ∨ c = '.') := by
  unfold r2match at h
  rcases hm : matchNum l with _ | ⟨p⟩
  · rw [hm] at h
    simp at h
  · obtain ⟨a', r⟩ := p
    simp only [hm] at h
    rcases hw : r.dropWhile isPyWs with _ | ⟨x, xs⟩
    · simp only [hw] at h
      exact Option.noConfusion h
    · simp only [hw] at h
      by_cases hx : x = '%'
      · rw [if_pos hx] at h
        rw [Option.some.injEq, Prod.mk.injEq] at h
        obtain ⟨h1, h2⟩ := h
        obtain ⟨hl, hne, halpha, _⟩ := matchNum_decomp hm
        refine ⟨r.takeWhile isPyWs, fun c hc => List.mem_takeWhile_imp hc, ?_, ?_, ?_⟩
        · have hr2 : r.takeWhile isPyWs ++ ('%' :: rest) = r := by
            have hh := List.takeWhile_append_dropWhile (p := isPyWs) (l := r)
            rw [hw, hx, h2] at hh
            exact hh
          rw [hl, ← h1]
          exact congrArg (a' ++ ·) hr2.symm
        · rw [← h1]
          exact hne
        · rw [← h1]
          exact halpha
      · rw [if_neg hx] at h
        exact Option.noConfusion h

/-- A successful rule-2 match consumes at least two characters. -/
theorem r2match_length {l a rest : List Char} (h : r2match l = some (a, rest)) :
    rest.length < l.length := by
  obtain ⟨w, _, hl, hne, _⟩ := r2match_decomp h
  rw [hl]
  simp only [List.length_append, List.length_cons]
  have : 1 ≤ a.length := List.length_pos.mpr hne
  omega

/-- A rule-1 match would also be a rule-2 match (spaces and tabs are
whitespace, and `%` is not). -/
theorem r1match_none_of_r2match_none {l : List Char} (h : r2match l = none) :
    r1match l = none := by
  unfold r1match
  rcases hm : matchNum l with _ | ⟨p⟩
  · simp only [hm]
  · obtain ⟨a, r⟩ := p
    simp only [hm]
    rcases hst : r.dropWhile isSpaceTab with _ | ⟨x, r2⟩
    · simp only [hst]
    · simp only [hst]
      by_cases hx : x = '%'
      · exfalso
        have hstw : ∀ c ∈ r.takeWhile isSpaceTab, isPyWs c = true :=
          fun c hc => spaceTab_isPyWs c (List.mem_takeWhile_imp hc)
        have hr : r.takeWhile isSpaceTab ++ (x :: r2) = r := by
          have hh := List.takeWhile_append_dropWhile (p := isSpaceTab) (l := r)
          rw [hst] at hh
          exact hh
        have hdw : r.dropWhile isPyWs = x :: r2 := by
          rw [← hr]
          refine (takeWhile_dropWhile_app isPyWs (r.takeWhile isSpaceTab) (x :: r2) hstw ?_).2
          intro y ys hy
          rw [List.cons.injEq] at hy
          rw [← hy.1, hx]
          rfl
        unfold r2match at h
        simp only [hm, hdw, hx, if_true] at h
        exact Option.noConfusion h
      · rw [if_neg hx]

/-- The fuel of the rule-2 scan is irrelevant once it covers the length. -/
theorem sub2F_congr : ∀ (n : Nat) (l : List Char), l.length ≤ n →
    ∀ f1 f2 : Nat, l.length ≤ f1 → l.length ≤ f2 → sub2F f1 l = sub2F f2 l := by
  intro n
  induction n with
  | zero =>
    intro l hl f1 f2 _ _
    have : l = [] := List.length_eq_zero.mp (Nat.le_zero.mp hl)
    subst this
    cases f1 <;> cases f2 <;> rfl
  | succ n ih =>
    intro l hl f1 f2 h1 h2
    cases l with
    | nil => cases f1 <;> cases f2 <;> rfl
    | cons c cs =>
      have hcs : (c :: cs).length = cs.length + 1 := rfl
      cases f1 with
      | zero => rw [hcs] at h1; omega
      | succ g1 =>
        cases f2 with
        | zero => rw [hcs] at h2; omega
        | succ g2 =>
          rcases hm : r2match (c :: cs) with _ | ⟨p⟩
          · simp only [sub2F, hm]
            rw [hcs] at hl h1 h2
            rw [ih cs (by omega) g1 g2 (by omega) (by omega)]
          · obtain ⟨a, rest⟩ := p
            simp only [sub2F, hm]
            have hlen : rest.length < (c :: cs).length := r2match_length hm
            rw [hcs] at hl h1 h2 hlen
            rw [ih rest (by omega) g1 g2 (by omega) (by omega)]

/-- `sub2F` computes `sub2` for any sufficient fuel. -/
theorem sub2F_fuel (f : Nat) (l : List Char) (h : l.length ≤ f) :
    sub2F f l = sub2 l :=
  sub2F_congr l.length l le_rfl f l.length h le_rfl

/-- Unfolding of the rule-2 scan at a matching position. -/
theorem sub2_cons_some {c : Char} {cs a rest : List Char}
    (h : r2match (c :: cs) = some (a, rest)) :
    sub2 (c :: cs) = '(' :: (a ++ repl2Tail ++ sub2 rest) := by
  show sub2F (cs.length + 1) (c :: cs) = _
  simp only [sub2F, h]
  have hlen : rest.length < cs.length + 1 := r2match_length h
  rw [sub2F_fuel cs.length rest (by omega)]

/-- Unfolding of the rule-2 scan at a non-matching position. -/
theorem sub2_cons_none {c : Char} {cs : List Char} (h : r2match (c :: cs) = none) :
    sub2 (c :: cs) = c :: sub2 cs := by
  show sub2F (cs.length + 1) (c :: cs) = _
  simp only [sub2F, h]
  rfl

/-- The rule-2 scan of the empty list. -/
theorem sub2_nil : sub2 [] = [] := rfl

/-- Evaluation of the rule-2 matcher through a known numeral match. -/
theorem r2match_eval {l a rr : List Char} (hq : matchNum l = some (a, rr)) :
    r2match l = (match rr.dropWhile isPyWs with
                 | [] => none
                 | x :: rest => if x = '%' then some (a, rest) else none) := by
  unfold r2match
  simp only [hq]

/-- Python whitespace is not a digit. -/
theorem pyWs_not_digit (c : Char) (h : isPyWs c = true) : isDigitC c = false := by
  simp only [isPyWs, Bool.or_eq_true, decide_eq_true_eq] at h
  rcases h with ((((h | h) | h) | h) | h) | h <;> subst h <;> decide

/-- A list whose head fails the predicate has an empty `takeWhile`. -/
theorem takeWhile_nil_of_head (p : Char → Bool) (l : List Char)
    (h : ∀ x xs, l = x :: xs → p x = false) : l.takeWhile p = [] := by
  cases l with
  | nil => rfl
  | cons x xs => simp [List.takeWhile_cons, h x xs rfl]

/-- The rule-2 scan copies a head that is not a digit. -/
theorem sub2_head_eq (x : Char) (t : List Char) (hx : isDigitC x = false) :
    sub2 (x :: t) = x :: sub2 t :=
  sub2_cons_none (r2match_none_of_head x t hx)

/-- The rule-2 scan preserves a non-digit head (the replacement starts with a
parenthesis, which is not a digit either). -/
theorem sub2_head_not_digit (t : List Char)
    (ht : ∀ x xs, t = x :: xs → isDigitC x = false) :
    ∀ y ys, sub2 t = y :: ys → isDigitC y = false := by
  cases t with
  | nil =>
    intro y ys h
    rw [sub2_nil] at h
    exact absurd h (by simp)
  | cons x t' =>
    have hx := ht x t' rfl
    rw [sub2_head_eq x t' hx]
    intro y ys h
    rw [List.cons.injEq] at h
    rw [← h.1]
    exact hx

/-- The rule-2 scan copies any prefix at whose positions no match starts. -/
theorem sub2_append_copy : ∀ (d t : List Char),
    (∀ d', d' <:+ d → d' ≠ [] → r2match (d' ++ t) = none) →
    sub2 (d ++ t) = d ++ sub2 t
  | [], t, _ => by simp
  | c :: d', t, hf => by
    have h0 : r2match (c :: (d' ++ t)) = none := by
      have := hf (c :: d') (List.suffix_refl _) (by simp)
      simpa using this
    rw [List.cons_append, sub2_cons_none h0, sub2_append_copy d' t
      (fun e he hne => hf e (he.trans (List.suffix_cons c d')) hne)]
    rfl

/-- A suffix of an append is a suffix of the right part, or a nonempty suffix
of the left part followed by the whole right part. -/
theorem suffix_append_cases {l' x y : List Char} (h : l' <:+ x ++ y) :
    l' <:+ y ∨ ∃ x', x' <:+ x ∧ x' ≠ [] ∧ l' = x' ++ y := by
  induction x with
  | nil => exact Or.inl (by simpa using h)
  | cons a xs ih =>
    rw [List.cons_append] at h
    rcases List.suffix_cons_iff.mp h with h | h
    · exact Or.inr ⟨a :: xs, List.suffix_refl _, by simp, by simpa using h⟩
    · rcases ih h with h | ⟨x', hx1, hx2, hx3⟩
      · exact Or.inl h
      · exact Or.inr ⟨x', hx1.trans (List.suffix_cons a xs), hx2, hx3⟩

/-- The rule-2 scan preserves the invariant that the first non-whitespace
character is not a percent sign. -/
theorem sub2_notPct (m : List Char)
    (hm : ∀ x xs, m.dropWhile isPyWs = x :: xs → x ≠ '%') :
    ∀ x xs, (sub2 m).dropWhile isPyWs = x :: xs → x ≠ '%' := by
  have hsplit : m.takeWhile isPyWs ++ m.dropWhile isPyWs = m :=
    List.takeWhile_append_dropWhile isPyWs m
  have hw : ∀ c ∈ m.takeWhile isPyWs, isPyWs c = true :=
    fun c hc => List.mem_takeWhile_imp hc
  have hcopy : sub2 m = m.takeWhile isPyWs ++ sub2 (m.dropWhile isPyWs) := by
    conv_lhs => rw [← hsplit]
    apply sub2_append_copy
    intro d' hd' hne
    rcases d' with _ | ⟨c, cs⟩
    · exact absurd rfl hne
    · have hc : isPyWs c = true := hw c (hd'.subset (List.mem_cons_self c cs))
      exact r2match_none_of_head c _ (pyWs_not_digit c hc)
  rw [hcopy]
  rcases hm' : m.dropWhile isPyWs with _ | ⟨z, zs⟩
  · rw [sub2_nil, List.append_nil]
    intro x xs hx
    have h1 : (m.takeWhile isPyWs).dropWhile isPyWs = [] :=
      List.dropWhile_eq_nil_iff.mpr hw
    rw [h1] at hx
    exact absurd hx (by simp)
  · have hz1 : isPyWs z = false := dropWhile_head_false isPyWs m z zs hm'
    have hz2 : z ≠ '%' := hm z zs hm'
    rcases hr : r2match (z :: zs) with _ | ⟨p⟩
    · rw [sub2_cons_none hr]
      intro x xs hx
      have hd := (takeWhile_dropWhile_app isPyWs (m.takeWhile isPyWs) (z :: sub2 zs) hw
        (by
          intro y ys hy
          rw [List.cons.injEq] at hy
          rw [← hy.1]
          exact hz1)).2
      rw [hd] at hx
      rw [List.cons.injEq] at hx
      rw [← hx.1]
      exact hz2
    · obtain ⟨a, rest⟩ := p
      rw [sub2_cons_some hr]
      intro x xs hx
      have hd := (takeWhile_dropWhile_app isPyWs (m.takeWhile isPyWs)
        ('(' :: (a ++ repl2Tail ++ sub2 rest)) hw
        (by
          intro y ys hy
          rw [List.cons.injEq] at hy
          rw [← hy.1]
          decide)).2
      rw [hd] at hx
      rw [List.cons.injEq] at hx
      rw [← hx.1]
      decide

/-- No rule-2 match starts inside a digits-and-dots block that is terminated
by a character that is not a digit, a dot, whitespace or a percent sign. -/
theorem r2match_alpha_append (d : List Char) (z : Char) (r : List Char)
    (hd : ∀ c ∈ d, isDigitC c = true ∨ c = '.')
    (hz1 : isDigitC z = false) (hz2 : z ≠ '.') (hz3 : isPyWs z = false)
    (hz4 : z ≠ '%') :
    r2match (d ++ z :: r) = none := by
  rcases hq : matchNum (d ++ z :: r) with _ | ⟨p⟩
  · unfold r2match
    simp only [hq]
  · obtain ⟨a, rr⟩ := p
    obtain ⟨hl, hne, halpha, hhead⟩ := matchNum_decomp hq
    rw [r2match_eval hq]
    rcases List.append_eq_append_iff.mp hl.symm with ⟨t, hd2, hrr⟩ | ⟨c', ha, hzr⟩
    · cases t with
      | nil =>
        rw [List.nil_append] at hrr
        subst hrr
        have : (z :: r).dropWhile isPyWs = z :: r := by
          rw [List.dropWhile_cons, hz3]
          simp
        rw [this]
        simp [hz4]
      | cons y ys =>
        have hy : isDigitC y = false := hhead y (ys ++ z :: r) (by rw [hrr]; rfl)
        have hym : y ∈ d := by
          rw [hd2]
          exact List.mem_append_right a (List.mem_cons_self y ys)
        have hyd : y = '.' := by
          rcases hd y hym with h | h
          · rw [h] at hy
            exact absurd hy (by simp)
          · exact h
        rw [hrr]
        have : ((y :: (ys ++ z :: r)).dropWhile isPyWs) = y :: (ys ++ z :: r) := by
          rw [List.dropWhile_cons, hyd, if_neg (by decide)]
        rw [List.cons_append]
        rw [this]
        rw [hyd]
        simp
    · cases c' with
      | nil =>
        rw [List.append_nil] at ha
        rw [List.nil_append] at hzr
        subst hzr
        have : (z :: r).dropWhile isPyWs = z :: r := by
          rw [List.dropWhile_cons, hz3]
          simp
        rw [this]
        simp [hz4]
      | cons w ws =>
        exfalso
        have hwz : w = z := by
          have := congrArg (fun l => l.head?) hzr
          simpa using this.symm
        have hwa : w ∈ a := by
          rw [ha]
          exact List.mem_append_right d (List.mem_cons_self w ws)
        rcases halpha w hwa with h | h
        · rw [hwz] at h
          rw [h] at hz1
          exact absurd hz1 (by simp)
        · rw [hwz] at h
          exact hz2 h

/-- The continuation of a failed rule-2 match still fails after the scan
rewrites the continuation (the head is not a digit). -/
theorem r2Cont_sub2 : ∀ (n : Nat) (t : List Char), t.length ≤ n →
    (∀ x xs, t = x :: xs → isDigitC x = false) →
    r2Cont t = none → r2Cont (sub2 t) = none := by
  intro n
  induction n with
  | zero =>
    intro t ht _ _
    have : t = [] := List.length_eq_zero.mp (Nat.le_zero.mp ht)
    subst this
    rw [sub2_nil]
    rfl
  | succ n ih =>
    intro t htn ht hc
    rcases t with _ | ⟨z, r0⟩
    · rw [sub2_nil]
      rfl
    · have hz : isDigitC z = false := ht z r0 rfl
      by_cases hzd : z = '.'
      · subst hzd
        by_cases hf : (r0.takeWhile isDigitC).isEmpty = true
        · -- no digits after the dot: the continuation keeps failing trivially
          rw [sub2_head_eq '.' r0 (by decide)]
          have hr0 : ∀ x xs, r0 = x :: xs → isDigitC x = false := by
            intro x xs hx
            subst hx
            rcases hq : isDigitC x with _ | _
            · rfl
            · rw [List.isEmpty_iff] at hf
              rw [List.takeWhile_cons, hq] at hf
              simp at hf
          have htw : (sub2 r0).takeWhile isDigitC = [] :=
            takeWhile_nil_of_head _ _ (sub2_head_not_digit r0 hr0)
          simp only [r2Cont, numFrac]
          simp only [if_pos rfl, htw, List.isEmpty_nil, if_true]
          have : ('.' :: sub2 r0).dropWhile isPyWs = '.' :: sub2 r0 := by
            rw [List.dropWhile_cons, if_neg (by decide)]
          rw [this]
          simp
        · -- digits after the dot
          have hfs : r0.takeWhile isDigitC ≠ [] := by
            intro hnil
            rw [hnil] at hf
            simp at hf
          have hfsd : ∀ c ∈ r0.takeWhile isDigitC, isDigitC c = true :=
            fun c hcm => List.mem_takeWhile_imp hcm
          have hrest1 : ∀ x xs, r0.dropWhile isDigitC = x :: xs → isDigitC x = false :=
            fun x xs hx => dropWhile_head_false isDigitC r0 x xs hx
          have hr0split : r0.takeWhile isDigitC ++ r0.dropWhile isDigitC = r0 :=
            List.takeWhile_append_dropWhile isDigitC r0
          -- from hc: the whitespace-then-percent after the fractional part fails
          have hcont : ∀ x xs,
              (r0.dropWhile isDigitC).dropWhile isPyWs = x :: xs → x ≠ '%' := by
            intro x xs hx hpct
            simp only [r2Cont, numFrac] at hc
            rw [if_pos trivial, if_neg hf] at hc
            simp only [hx, hpct] at hc
            simp at hc
          rw [sub2_head_eq '.' r0 (by decide)]
          rcases hr : r2match r0 with _ | ⟨p⟩
          · -- the scan copies the digits after the dot
            have hcont2 : r2Cont (r0.dropWhile isDigitC) = none := by
              rcases hq : r2Cont (r0.dropWhile isDigitC) with _ | rr
              · rfl
              · exfalso
                have := r2match_digits_append_some (r0.takeWhile isDigitC) _ rr
                  hfs hfsd hrest1 hq
                rw [hr0split] at this
                rw [this] at hr
                exact Option.noConfusion hr
            have hcopy : sub2 r0 =
                r0.takeWhile isDigitC ++ sub2 (r0.dropWhile isDigitC) := by
              conv_lhs => rw [← hr0split]
              apply sub2_append_copy
              intro d' hd' hne
              rcases d' with _ | ⟨e, es⟩
              · exact absurd rfl hne
              · have hed : ∀ x ∈ e :: es, isDigitC x = true :=
                  fun x hx => List.mem_takeWhile_imp (hd'.subset hx)
                exact r2match_digits_append_none (e :: es) _ (by simp) hed hrest1 hcont2
            rw [hcopy]
            -- compute the continuation on the rewritten list
            have hsub2h : ∀ y ys, sub2 (r0.dropWhile isDigitC) = y :: ys →
                isDigitC y = false := sub2_head_not_digit _ hrest1
            have htw2 : (r0.takeWhile isDigitC ++
                sub2 (r0.dropWhile isDigitC)).takeWhile isDigitC =
                r0.takeWhile isDigitC :=
              (takeWhile_dropWhile_app isDigitC _ _ hfsd hsub2h).1
            have hdw2 : (r0.takeWhile isDigitC ++
                sub2 (r0.dropWhile isDigitC)).dropWhile isDigitC =
                sub2 (r0.dropWhile isDigitC) :=
              (takeWhile_dropWhile_app isDigitC _ _ hfsd hsub2h).2
            have hnpct := sub2_notPct (r0.dropWhile isDigitC) hcont
            simp only [r2Cont, numFrac]
            rw [if_pos trivial]
            rw [if_neg (show ¬((r0.takeWhile isDigitC ++
              sub2 (r0.dropWhile isDigitC)).takeWhile isDigitC).isEmpty = true by
                rw [htw2]; exact hf)]
            simp only [hdw2]
            rcases hdp : (sub2 (r0.dropWhile isDigitC)).dropWhile isPyWs with _ | ⟨x, xs⟩
            · rfl
            · have hxp := hnpct x xs hdp
              simp [hxp]
          · -- the scan fires inside the digits: the output starts with a paren
            obtain ⟨a, rest⟩ := p
            rcases r0 with _ | ⟨f0, r0'⟩
            · rw [r2match_nil] at hr
              exact Option.noConfusion hr
            · rw [sub2_cons_some hr]
              simp only [r2Cont, numFrac]
              have : ('(' :: (a ++ repl2Tail ++ sub2 rest)).takeWhile isDigitC = [] := by
                rw [List.takeWhile_cons, if_neg (by decide)]
              simp only [if_pos rfl, this, List.isEmpty_nil, if_true]
              have hdp : ('.' :: '(' :: (a ++ repl2Tail ++ sub2 rest)).dropWhile isPyWs =
                  '.' :: '(' :: (a ++ repl2Tail ++ sub2 rest) := by
                rw [List.dropWhile_cons, if_neg (by decide)]
              rw [hdp]
              simp
      · -- head is neither digit nor dot: everything reduces to the invariant
        have hnp : ∀ x xs, (z :: r0).dropWhile isPyWs = x :: xs → x ≠ '%' := by
          intro x xs hx hpct
          simp only [r2Cont, numFrac] at hc
          rw [if_neg hzd] at hc
          rw [hx, hpct] at hc
          simp at hc
        have hnp2 := sub2_notPct (z :: r0) hnp
        rw [sub2_head_eq z r0 hz] at hnp2 ⊢
        simp only [r2Cont, numFrac]
        rw [if_neg hzd]
        rcases hdp : (z :: sub2 r0).dropWhile isPyWs with _ | ⟨x, xs⟩
        · rfl
        · have := hnp2 x xs hdp
          simp [this]

/-- If no rule-2 match starts at a digit-headed position, none starts there
after the tail is rewritten by the scan. -/
theorem r2match_cons_sub2 (c : Char) (cs : List Char) (hc : isDigitC c = true)
    (h : r2match (c :: cs) = none) : r2match (c :: sub2 cs) = none := by
  have hsplit : cs.takeWhile isDigitC ++ cs.dropWhile isDigitC = cs :=
    List.takeWhile_append_dropWhile isDigitC cs
  have htd : ∀ x xs, cs.dropWhile isDigitC = x :: xs → isDigitC x = false :=
    fun x xs hx => dropWhile_head_false isDigitC cs x xs hx
  have hcd : ∀ x ∈ c :: cs.takeWhile isDigitC, isDigitC x = true := by
    intro x hx
    rcases List.mem_cons.mp hx with rfl | hx
    · exact hc
    · exact List.mem_takeWhile_imp hx
  have h1 : c :: cs = (c :: cs.takeWhile isDigitC) ++ cs.dropWhile isDigitC := by
    rw [List.cons_append, hsplit]
  have hcont : r2Cont (cs.dropWhile isDigitC) = none := by
    rcases hq : r2Cont (cs.dropWhile isDigitC) with _ | rr
    · rfl
    · exfalso
      have h2 := r2match_digits_append_some (c :: cs.takeWhile isDigitC) _ rr
        (by simp) hcd htd hq
      rw [← h1] at h2
      rw [h2] at h
      exact Option.noConfusion h
  have hcopy : sub2 cs = cs.takeWhile isDigitC ++ sub2 (cs.dropWhile isDigitC) := by
    conv_lhs => rw [← hsplit]
    apply sub2_append_copy
    intro d' hd' hne
    rcases d' with _ | ⟨e, es⟩
    · exact absurd rfl hne
    · have hed : ∀ x ∈ e :: es, isDigitC x = true :=
        fun x hx => List.mem_takeWhile_imp (hd'.subset hx)
      exact r2match_digits_append_none (e :: es) _ (by simp) hed htd hcont
  rw [hcopy]
  have hlen : (cs.dropWhile isDigitC).length ≤ cs.length :=
    (List.dropWhile_suffix isDigitC).length_le
  exact r2match_digits_append_none (c :: cs.takeWhile isDigitC) _ (by simp) hcd
    (sub2_head_not_digit _ htd)
    (r2Cont_sub2 (cs.dropWhile isDigitC).length _ le_rfl htd hcont)

/-- The key invariant: no rule-2 match starts at any position of the output
of the rule-2 scan. -/
theorem sub2_stable_aux : ∀ (n : Nat) (u : List Char), u.length ≤ n →
    ∀ l', l' <:+ sub2 u → r2match l' = none := by
  intro n
  induction n with
  | zero =>
    intro u hu l' hl'
    have hnil : u = [] := List.length_eq_zero.mp (Nat.le_zero.mp hu)
    subst hnil
    rw [sub2_nil] at hl'
    rw [List.suffix_nil.mp hl']
    exact r2match_nil
  | succ n ih =>
    intro u hu l' hl'
    rcases u with _ | ⟨c, cs⟩
    · rw [sub2_nil] at hl'
      rw [List.suffix_nil.mp hl']
      exact r2match_nil
    · have hcs : cs.length ≤ n := by
        have : (c :: cs).length = cs.length + 1 := rfl
        omega
      rcases hm : r2match (c :: cs) with _ | ⟨p⟩
      · rw [sub2_cons_none hm] at hl'
        rcases List.suffix_cons_iff.mp hl' with h | h
        · subst h
          by_cases hcd : isDigitC c = true
          · exact r2match_cons_sub2 c cs hcd hm
          · exact r2match_none_of_head c _ (by simpa using hcd)
        · exact ih cs hcs l' h
      · obtain ⟨a, rest⟩ := p
        rw [sub2_cons_some hm] at hl'
        have hrest : rest.length ≤ n := by
          have h2 := r2match_length hm
          have : (c :: cs).length = cs.length + 1 := rfl
          omega
        obtain ⟨w, _, _, _, halpha⟩ := r2match_decomp hm
        rcases List.suffix_cons_iff.mp hl' with h | h
        · subst h
          exact r2match_none_of_head '(' _ (by decide)
        · rcases suffix_append_cases h with h2 | ⟨x', hx1, hx2, rfl⟩
          · exact ih rest hrest l' h2
          · rcases suffix_append_cases hx1 with h3 | ⟨a', ha1, ha2, rfl⟩
            · -- a suffix of the fixed replacement tail, then the rewritten rest
              have hx4 : x' ∈ repl2Tail.tails := (List.mem_tails x' repl2Tail).mpr h3
              have htails : repl2Tail.tails =
                  [['/', '1', '0', '0', ')'], ['1', '0', '0', ')'], ['0', '0', ')'],
                   ['0', ')'], [')'], []] := by decide
              rw [htails] at hx4
              simp only [List.mem_cons, List.mem_singleton] at hx4
              rcases hx4 with rfl | rfl | rfl | rfl | rfl | rfl | hx4
              · exact r2match_none_of_head '/' _ (by decide)
              · exact r2match_alpha_append ['1', '0', '0'] ')' (sub2 rest)
                  (by decide) (by decide) (by decide) (by decide) (by decide)
              · exact r2match_alpha_append ['0', '0'] ')' (sub2 rest)
                  (by decide) (by decide) (by decide) (by decide) (by decide)
              · exact r2match_alpha_append ['0'] ')' (sub2 rest)
                  (by decide) (by decide) (by decide) (by decide) (by decide)
              · exact r2match_none_of_head ')' _ (by decide)
              · exact absurd rfl hx2
              · simp at hx4
            · -- a nonempty suffix of the literal, then `/100)` and the rest
              have ha3 : ∀ x ∈ a', isDigitC x = true ∨ x = '.' :=
                fun x hx => halpha x (ha1.subset hx)
              have hsh : a' ++ repl2Tail ++ sub2 rest =
                  a' ++ '/' :: ('1' :: '0' :: '0' :: ')' :: sub2 rest) := by
                simp [repl2Tail]
              rw [hsh]
              exact r2match_alpha_append a' '/' _ ha3 (by decide) (by decide)
                (by decide) (by decide)

/-- No rule-2 match starts anywhere in the output of the rule-2 scan. -/
theorem sub2_stable (u l' : List Char) (h : l' <:+ sub2 u) : r2match l' = none :=
  sub2_stable_aux u.length u le_rfl l' h

/-- A list in which no rule-2 match starts anywhere is fixed by the rule-2
scan. -/
theorem sub2_eq_self_of_stable : ∀ (n : Nat) (u : List Char), u.length ≤ n →
    (∀ l', l' <:+ u → r2match l' = none) → sub2 u = u := by
  intro n
  induction n with
  | zero =>
    intro u hu _
    rw [List.length_eq_zero.mp (Nat.le_zero.mp hu)]
    rfl
  | succ n ih =>
    intro u hu hst
    rcases u with _ | ⟨c, cs⟩
    · rfl
    · have h0 : r2match (c :: cs) = none := hst _ (List.suffix_refl _)
      rw [sub2_cons_none h0]
      have hcs : cs.length ≤ n := by
        have : (c :: cs).length = cs.length + 1 := rfl
        omega
      rw [ih cs hcs (fun l' hl' => hst l' (hl'.trans (List.suffix_cons c cs)))]

/-- Decomposition of a successful rule-1 match: the input is the literal,
horizontal whitespace, a percent sign, more horizontal whitespace and the
remainder (which the lookahead leaves unconsumed). -/
theorem r1match_decomp {l a rest : List Char} (h : r1match l = some (a, rest)) :
    ∃ w1 w2, l = a ++ (w1 ++ '%' :: (w2 ++ rest)) ∧ a ≠ [] := by
  unfold r1match at h
  rcases hm : matchNum l with _ | ⟨p⟩
  · rw [hm] at h
    simp at h
  · obtain ⟨a', r⟩ := p
    simp only [hm] at h
    rcases hw : r.dropWhile isSpaceTab with _ | ⟨x, r2⟩
    · simp only [hw] at h
      exact Option.noConfusion h
    · simp only [hw] at h
      by_cases hx : x = '%'
      · rw [if_pos hx] at h
        rcases hw2 : r2.dropWhile isSpaceTab with _ | ⟨c, r3⟩
        · simp only [hw2] at h
          exact Option.noConfusion h
        · simp only [hw2] at h
          by_cases hc : (isDigitC c || c = '(') = true
          · rw [if_pos hc] at h
            rw [Option.some.injEq, Prod.mk.injEq] at h
            obtain ⟨h1, h2⟩ := h
            obtain ⟨hl, hne, _, _⟩ := matchNum_decomp hm
            refine ⟨r.takeWhile isSpaceTab, r2.takeWhile isSpaceTab, ?_, ?_⟩
            · have hr3 : r2.takeWhile isSpaceTab ++ rest = r2 := by
                have hh := List.takeWhile_append_dropWhile isSpaceTab r2
                rw [hw2, h2] at hh
                exact hh
              have hr2 : r.takeWhile isSpaceTab ++ ('%' :: (r2.takeWhile isSpaceTab ++ rest)) = r := by
                have hh := List.takeWhile_append_dropWhile isSpaceTab r
                rw [hw, hx] at hh
                rw [hr3]
                exact hh
              rw [hl, ← h1]
              exact congrArg (a' ++ ·) hr2.symm
            · rw [← h1]
              exact hne
          · rw [if_neg hc] at h
            exact Option.noConfusion h
      · rw [if_neg hx] at h
        exact Option.noConfusion h

/-- A successful rule-1 match consumes at least two characters before `rest`. -/
theorem r1match_length {l a rest : List Char} (h : r1match l = some (a, rest)) :
    rest.length < l.length := by
  obtain ⟨w1, w2, hl, hne⟩ := r1match_decomp h
  rw [hl]
  simp only [List.length_append, List.length_cons]
  have : 1 ≤ a.length := List.length_pos.mpr hne
  omega

/-- `sub1F` does not depend on the fuel, once the fuel covers the length. -/
theorem sub1F_congr : ∀ (n : Nat) (l : List Char), l.length ≤ n →
    ∀ f1 f2 : Nat, l.length ≤ f1 → l.length ≤ f2 → sub1F f1 l = sub1F f2 l := by
  intro n
  induction n with
  | zero =>
    intro l hl f1 f2 _ _
    have : l = [] := List.length_eq_zero.mp (Nat.le_zero.mp hl)
    subst this
    cases f1 <;> cases f2 <;> rfl
  | succ n ih =>
    intro l hl f1 f2 h1 h2
    cases l with
    | nil => cases f1 <;> cases f2 <;> rfl
    | cons c cs =>
      have hcs : (c :: cs).length = cs.length + 1 := rfl
      cases f1 with
      | zero => rw [hcs] at h1; omega
      | succ g1 =>
        cases f2 with
        | zero => rw [hcs] at h2; omega
        | succ g2 =>
          rcases hm : r1match (c :: cs) with _ | ⟨p⟩
          · simp only [sub1F, hm]
            rw [hcs] at hl h1 h2
            rw [ih cs (by omega) g1 g2 (by omega) (by omega)]
          · obtain ⟨a, rest⟩ := p
            simp only [sub1F, hm]
            have hlen : rest.length < (c :: cs).length := r1match_length hm
            rw [hcs] at hl h1 h2 hlen
            rw [ih rest (by omega) g1 g2 (by omega) (by omega)]

/-- `sub1F` computes `sub1` for any sufficient fuel. -/
theorem sub1F_fuel (f : Nat) (l : List Char) (h : l.length ≤ f) :
    sub1F f l = sub1 l :=
  sub1F_congr l.length l le_rfl f l.length h le_rfl

/-- Unfolding of the rule-1 scan at a matching position. -/
theorem sub1_cons_some {c : Char} {cs a rest : List Char}
    (h : r1match (c :: cs) = some (a, rest)) :
    sub1 (c :: cs) = '(' :: (a ++ repl1Tail ++ sub1 rest) := by
  show sub1F (cs.length + 1) (c :: cs) = _
  simp only [sub1F, h]
  have hlen : rest.length < cs.length + 1 := r1match_length h
  rw [sub1F_fuel cs.length rest (by omega)]

/-- Unfolding of the rule-1 scan at a non-matching position. -/
theorem sub1_cons_none {c : Char} {cs : List Char} (h : r1match (c :: cs) = none) :
    sub1 (c :: cs) = c :: sub1 cs := by
  show sub1F (cs.length + 1) (c :: cs) = _
  simp only [sub1F, h]
  rfl

/-- The rule-1 scan of the empty list. -/
theorem sub1_nil : sub1 [] = [] := rfl

/-- A list in which no rule-1 match starts anywhere is fixed by the rule-1
scan. -/
theorem sub1_eq_self_of_stable : ∀ (n : Nat) (u : List Char), u.length ≤ n →
    (∀ l', l' <:+ u → r1match l' = none) → sub1 u = u := by
  intro n
  induction n with
  | zero =>
    intro u hu _
    rw [List.length_eq_zero.mp (Nat.le_zero.mp hu)]
    rfl
  | succ n ih =>
    intro u hu hst
    rcases u with _ | ⟨c, cs⟩
    · rfl
    · have h0 : r1match (c :: cs) = none := hst _ (List.suffix_refl _)
      rw [sub1_cons_none h0]
      have hcs : cs.length ≤ n := by
        have : (c :: cs).length = cs.length + 1 := rfl
        omega
      rw [ih cs hcs (fun l' hl' => hst l' (hl'.trans (List.suffix_cons c cs)))]

/-- A character of the output of `rep` is either a kept character of the
input (so not the replaced one) or comes from the replacement. -/
theorem mem_rep {c a : Char} {b : List Char} : ∀ {l : List Char},
    c ∈ rep a b l → (c ∈ l ∧ c ≠ a) ∨ c ∈ b := by
  intro l
  induction l with
  | nil => intro h; simp [rep] at h
  | cons d ds ih =>
    intro h
    rcases List.mem_append.mp h with h1 | h1
    · by_cases hd : d = a
      · rw [if_pos hd] at h1
        exact Or.inr h1
      · rw [if_neg hd] at h1
        rcases List.mem_singleton.mp h1 with rfl
        exact Or.inl ⟨List.mem_cons_self c ds, hd⟩
    · rcases ih h1 with ⟨h2, h3⟩ | h2
      · exact Or.inl ⟨List.mem_cons_of_mem d h2, h3⟩
      · exact Or.inr h2

/-- `rep` is the identity when the replaced character does not occur. -/
theorem rep_eq_self_of_not_mem {a : Char} {b : List Char} : ∀ {l : List Char},
    a ∉ l → rep a b l = l := by
  intro l
  induction l with
  | nil => intro _; rfl
  | cons d ds ih =>
    intro h
    show (if d = a then b else [d]) ++ rep a b ds = d :: ds
    have hda : d ≠ a := fun hd => h (hd ▸ List.mem_cons_self d ds)
    rw [if_neg hda, ih (fun hd => h (List.mem_cons_of_mem d hd))]
    rfl

/-- The characters of the rule-1 scan output come from the input, an opening
parenthesis or the replacement tail. -/
theorem mem_sub1_aux : ∀ (n : Nat) (l : List Char), l.length ≤ n →
    ∀ c, c ∈ sub1 l → c ∈ l ∨ c = '(' ∨ c ∈ repl1Tail := by
  intro n
  induction n with
  | zero =>
    intro l hl c hc
    rw [List.length_eq_zero.mp (Nat.le_zero.mp hl), sub1_nil] at hc
    simp at hc
  | succ n ih =>
    intro l hl c hc
    rcases l with _ | ⟨x, xs⟩
    · rw [sub1_nil] at hc
      simp at hc
    · have hxs : xs.length ≤ n := by
        have : (x :: xs).length = xs.length + 1 := rfl
        omega
      rcases hm : r1match (x :: xs) with _ | ⟨p⟩
      · rw [sub1_cons_none hm] at hc
        rcases List.mem_cons.mp hc with rfl | hc
        · exact Or.inl (List.mem_cons_self c xs)
        · rcases ih xs hxs c hc with h | h
          · exact Or.inl (List.mem_cons_of_mem x h)
          · exact Or.inr h
      · obtain ⟨a, rest⟩ := p
        rw [sub1_cons_some hm] at hc
        obtain ⟨w1, w2, hl2, _⟩ := r1match_decomp hm
        have hrest : rest.length ≤ n := by
          have h1 := r1match_length hm
          have : (x :: xs).length = xs.length + 1 := rfl
          omega
        rcases List.mem_cons.mp hc with rfl | hc
        · exact Or.inr (Or.inl rfl)
        · rcases List.mem_append.mp hc with hc | hc
          · rcases List.mem_append.mp hc with hc | hc
            · left
              rw [hl2]
              exact List.mem_append_left _ hc
            · exact Or.inr (Or.inr hc)
          · rcases ih rest hrest c hc with h | h
            · left
              rw [hl2]
              exact List.mem_append_right _ (List.mem_append_right _
                (List.mem_cons_of_mem _ (List.mem_append_right _ h)))
            · exact Or.inr h

/-- The characters of the rule-2 scan output come from the input, an opening
parenthesis or the replacement tail. -/
theorem mem_sub2_aux : ∀ (n : Nat) (l : List Char), l.length ≤ n →
    ∀ c, c ∈ sub2 l → c ∈ l ∨ c = '(' ∨ c ∈ repl2Tail := by
  intro n
  induction n with
  | zero =>
    intro l hl c hc
    rw [List.length_eq_zero.mp (Nat.le_zero.mp hl), sub2_nil] at hc
    simp at hc
  | succ n ih =>
    intro l hl c hc
    rcases l with _ | ⟨x, xs⟩
    · rw [sub2_nil] at hc
      simp at hc
    · have hxs : xs.length ≤ n := by
        have : (x :: xs).length = xs.length + 1 := rfl
        omega
      rcases hm : r2match (x :: xs) with _ | ⟨p⟩
      · rw [sub2_cons_none hm] at hc
        rcases List.mem_cons.mp hc with rfl | hc
        · exact Or.inl (List.mem_cons_self c xs)
        · rcases ih xs hxs c hc with h | h
          · exact Or.inl (List.mem_cons_of_mem x h)
          · exact Or.inr h
      · obtain ⟨a, rest⟩ := p
        rw [sub2_cons_some hm] at hc
        obtain ⟨w, _, hl2, _, _⟩ := r2match_decomp hm
        have hrest : rest.length ≤ n := by
          have h1 := r2match_length hm
          have : (x :: xs).length = xs.length + 1 := rfl
          omega
        rcases List.mem_cons.mp hc with rfl | hc
        · exact Or.inr (Or.inl rfl)
        · rcases List.mem_append.mp hc with hc | hc
          · rcases List.mem_append.mp hc with hc | hc
            · left
              rw [hl2]
              exact List.mem_append_left _ hc
            · exact Or.inr (Or.inr hc)
          · rcases ih rest hrest c hc with h | h
            · left
              rw [hl2]
              exact List.mem_append_right _ (List.mem_append_right _
                (List.mem_cons_of_mem _ h))
            · exact Or.inr h

/-- The four operator and constant glyphs never occur in the preprocessor
output: each is erased by its own substitution and reintroduced by nothing. -/
theorem glyph_not_mem_preprocessL (c : Char)
    (hc : c = '×' ∨ c = '÷' ∨ c = '^' ∨ c = 'π') (l : List Char) :
    c ∉ preprocessL l := by
  intro hmem
  have hg : c ∉ glyphs l := by
    intro hg
    rcases mem_rep hg with ⟨hg, h4⟩ | hg
    swap
    · rcases hc with rfl | rfl | rfl | rfl <;> simp at hg
    rcases mem_rep hg with ⟨hg, h3⟩ | hg
    swap
    · rcases hc with rfl | rfl | rfl | rfl <;> simp at hg
    rcases mem_rep hg with ⟨hg, h2⟩ | hg
    swap
    · rcases hc with rfl | rfl | rfl | rfl <;> simp at hg
    rcases mem_rep hg with ⟨hg, h1⟩ | hg
    · rcases hc with rfl | rfl | rfl | rfl
      · exact h1 rfl
      · exact h2 rfl
      · exact h3 rfl
      · exact h4 rfl
    · rcases hc with rfl | rfl | rfl | rfl <;> simp at hg
  rcases mem_sub2_aux (sub1 (glyphs l)).length _ le_rfl c hmem with h | h | h
  · rcases mem_sub1_aux (glyphs l).length _ le_rfl c h with h | h | h
    · exact hg h
    · rcases hc with rfl | rfl | rfl | rfl <;> simp at h
    · rcases hc with rfl | rfl | rfl | rfl <;> simp [repl1Tail] at h
  · rcases hc with rfl | rfl | rfl | rfl <;> simp at h
  · rcases hc with rfl | rfl | rfl | rfl <;> simp [repl2Tail] at h

/-- The glyph pass is the identity on preprocessor output. -/
theorem glyphs_eq_self_of_preprocessL (l : List Char) :
    glyphs (preprocessL l) = preprocessL l := by
  unfold glyphs
  rw [rep_eq_self_of_not_mem
      (glyph_not_mem_preprocessL '×' (Or.inl rfl) l),
    rep_eq_self_of_not_mem
      (glyph_not_mem_preprocessL '÷' (Or.inr (Or.inl rfl)) l),
    rep_eq_self_of_not_mem
      (glyph_not_mem_preprocessL '^' (Or.inr (Or.inr (Or.inl rfl))) l),
    rep_eq_self_of_not_mem
      (glyph_not_mem_preprocessL 'π' (Or.inr (Or.inr (Or.inr rfl))) l)]

/-- The preprocessor is idempotent on character lists. -/
theorem preprocessL_idem (l : List Char) :
    preprocessL (preprocessL l) = preprocessL l := by
  conv_lhs => rw [preprocessL, glyphs_eq_self_of_preprocessL]
  have hsub1 : sub1 (preprocessL l) = preprocessL l := by
    apply sub1_eq_self_of_stable (preprocessL l).length _ le_rfl
    intro l' hl'
    exact r1match_none_of_r2match_none (sub2_stable _ _ hl')
  rw [hsub1]
  exact sub2_eq_self_of_stable (preprocessL l).length _ le_rfl
    (fun l' hl' => sub2_stable _ _ hl')

/-- `dropWhile` over a satisfied prefix stops at the first failing element. -/
theorem dropWhile_append_all {p : Char → Bool} : ∀ (w : List Char) (y : Char)
    (r : List Char), (∀ x ∈ w, p x = true) → p y = false →
    (w ++ y :: r).dropWhile p = y :: r := by
  intro w
  induction w with
  | nil =>
    intro y r _ hy
    rw [List.nil_append, List.dropWhile_cons, if_neg (by simp [hy])]
  | cons a w ih =>
    intro y r hw hy
    rw [List.cons_append, List.dropWhile_cons,
      if_pos (by simp [hw a (List.mem_cons_self a w)])]
    exact ih y r (fun x hx => hw x (List.mem_cons_of_mem a hx)) hy

/-- Python whitespace is not a dot. -/
theorem pyWs_ne_dot (c : Char) (h : isPyWs c = true) : c ≠ '.' := by
  simp only [isPyWs, Bool.or_eq_true, decide_eq_true_eq] at h
  rcases h with ((((h | h) | h) | h) | h) | h <;> subst h <;> decide

/-- The optional fractional part matches nothing when the head is not a dot. -/
theorem numFrac_notDot (t : List Char)
    (h : ∀ x xs, t = x :: xs → x ≠ '.') : numFrac t = ([], t) := by
  cases t with
  | nil => rfl
  | cons x r =>
    show (if x = '.' then _ else (([] : List Char), x :: r)) = ([], x :: r)
    rw [if_neg (h x r rfl)]

/-- The rule-2 continuation after the numeral: whitespace then `%`. -/
theorem r2Cont_ws_pct (ws rest : List Char) (hw : ∀ x ∈ ws, isPyWs x = true) :
    r2Cont (ws ++ '%' :: rest) = some rest := by
  have hnf : numFrac (ws ++ '%' :: rest) = ([], ws ++ '%' :: rest) := by
    apply numFrac_notDot
    intro x xs hx
    cases ws with
    | nil =>
      rw [List.nil_append] at hx
      rw [List.head_eq_of_cons_eq hx.symm]
      decide
    | cons a w =>
      rw [List.cons_append] at hx
      rw [List.head_eq_of_cons_eq hx.symm]
      exact pyWs_ne_dot a (hw a (List.mem_cons_self a w))
  unfold r2Cont
  rw [hnf]
  show (match (ws ++ '%' :: rest).dropWhile isPyWs with
        | [] => none
        | x :: rest => if x = '%' then some rest else none) = some rest
  rw [dropWhile_append_all ws '%' rest hw (by decide)]
  show (if ('%' : Char) = '%' then some rest else none) = some rest
  rw [if_pos rfl]

/-- The rule-2 rewrite at a numeral-percent head: the scan emits
`(literal/100)` and continues after the percent sign. -/
theorem sub2_head_rewrite (lit ws rest : List Char) (hne : lit ≠ [])
    (hd : ∀ x ∈ lit, isDigitC x = true) (hw : ∀ x ∈ ws, isPyWs x = true) :
    sub2 (lit ++ (ws ++ '%' :: rest)) = '(' :: (lit ++ repl2Tail ++ sub2 rest) := by
  have ht : ∀ x xs, ws ++ '%' :: rest = x :: xs → isDigitC x = false := by
    intro x xs hx
    cases ws with
    | nil =>
      rw [List.nil_append] at hx
      rw [List.head_eq_of_cons_eq hx.symm]
      decide
    | cons a w =>
      rw [List.cons_append] at hx
      rw [List.head_eq_of_cons_eq hx.symm]
      exact pyWs_not_digit a (hw a (List.mem_cons_self a w))
  have hm := r2match_digits_append_some lit (ws ++ '%' :: rest) rest hne hd ht
    (r2Cont_ws_pct ws rest hw)
  have hnf : numFrac (ws ++ '%' :: rest) = ([], ws ++ '%' :: rest) := by
    apply numFrac_notDot
    intro x xs hx
    cases ws with
    | nil =>
      rw [List.nil_append] at hx
      rw [List.head_eq_of_cons_eq hx.symm]
      decide
    | cons a w =>
      rw [List.cons_append] at hx
      rw [List.head_eq_of_cons_eq hx.symm]
      exact pyWs_ne_dot a (hw a (List.mem_cons_self a w))
  rw [hnf] at hm
  simp only [List.append_nil] at hm
  rcases lit with _ | ⟨d, lit'⟩
  · exact absurd rfl hne
  · exact sub2_cons_some hm

/-- The rule-1 matcher at a numeral-percent head with a numeral or
parenthesis lookahead. -/
theorem r1match_head (lit ws1 ws2 rest : List Char) (c : Char) (hne : lit ≠ [])
    (hd : ∀ x ∈ lit, isDigitC x = true)
    (h1 : ∀ x ∈ ws1, isSpaceTab x = true) (h2 : ∀ x ∈ ws2, isSpaceTab x = true)
    (hc : isDigitC c = true ∨ c = '(') :
    r1match (lit ++ (ws1 ++ '%' :: (ws2 ++ c :: rest))) = some (lit, c :: rest) := by
  have ht : ∀ x xs, ws1 ++ '%' :: (ws2 ++ c :: rest) = x :: xs →
      isDigitC x = false := by
    intro x xs hx
    cases ws1 with
    | nil =>
      rw [List.nil_append] at hx
      rw [List.head_eq_of_cons_eq hx.symm]
      decide
    | cons a w =>
      rw [List.cons_append] at hx
      rw [List.head_eq_of_cons_eq hx.symm]
      exact pyWs_not_digit a (spaceTab_isPyWs a (h1 a (List.mem_cons_self a w)))
  have hnf : numFrac (ws1 ++ '%' :: (ws2 ++ c :: rest)) =
      ([], ws1 ++ '%' :: (ws2 ++ c :: rest)) := by
    apply numFrac_notDot
    intro x xs hx
    cases ws1 with
    | nil =>
      rw [List.nil_append] at hx
      rw [List.head_eq_of_cons_eq hx.symm]
      decide
    | cons a w =>
      rw [List.cons_append] at hx
      rw [List.head_eq_of_cons_eq hx.symm]
      exact pyWs_ne_dot a (spaceTab_isPyWs a (h1 a (List.mem_cons_self a w)))
  have hm := matchNum_digits_append lit (ws1 ++ '%' :: (ws2 ++ c :: rest)) hne hd ht
  rw [hnf] at hm
  simp only [List.append_nil] at hm
  have hst : isSpaceTab c = false := by
    rcases hc with hc | rfl
    · rcases hq : isSpaceTab c with _ | _
      · rfl
      · exfalso
        have := pyWs_not_digit c (spaceTab_isPyWs c hq)
        rw [hc] at this
        exact Bool.noConfusion this
    · decide
  have hcor : (isDigitC c || c = '(') = true := by
    rcases hc with hc | rfl
    · simp [hc]
    · simp
  unfold r1match
  simp only [hm]
  rw [dropWhile_append_all ws1 '%' (ws2 ++ c :: rest) h1 (by decide)]
  show (if '%' = '%' then _ else none) = _
  rw [if_pos rfl]
  rw [dropWhile_append_all ws2 c rest h2 hst]
  show (if (isDigitC c || c = '(') = true then some (lit, c :: rest) else none) = _
  rw [if_pos hcor]

/-- The rule-1 rewrite at a matching head: the scan emits `(literal/100)*`
and continues at the lookahead. -/
theorem sub1_head_rewrite (lit ws1 ws2 rest : List Char) (c : Char)
    (hne : lit ≠ []) (hd : ∀ x ∈ lit, isDigitC x = true)
    (h1 : ∀ x ∈ ws1, isSpaceTab x = true) (h2 : ∀ x ∈ ws2, isSpaceTab x = true)
    (hc : isDigitC c = true ∨ c = '(') :
    sub1 (lit ++ (ws1 ++ '%' :: (ws2 ++ c :: rest))) =
      '(' :: (lit ++ repl1Tail ++ sub1 (c :: rest)) := by
  have hm := r1match_head lit ws1 ws2 rest c hne hd h1 h2 hc
  rcases lit with _ | ⟨d, lit'⟩
  · exact absurd rfl hne
  · exact sub1_cons_some hm

/-- The rule-2 matcher needs a percent sign in its input. -/
theorem r2match_none_of_no_pct {l : List Char} (h : '%' ∉ l) :
    r2match l = none := by
  rcases hr : r2match l with _ | ⟨p⟩
  · rfl
  · obtain ⟨a, rest⟩ := p
    obtain ⟨w, _, hl, _, _⟩ := r2match_decomp hr
    exfalso
    apply h
    rw [hl]
    exact List.mem_append_right _ (List.mem_append_right _ (List.mem_cons_self _ _))

/-- `rep` distributes over concatenation. -/
theorem rep_append (a : Char) (b : List Char) : ∀ (l1 l2 : List Char),
    rep a b (l1 ++ l2) = rep a b l1 ++ rep a b l2 := by
  intro l1
  induction l1 with
  | nil => intro l2; rfl
  | cons d ds ih =>
    intro l2
    show (if d = a then b else [d]) ++ rep a b (ds ++ l2) =
      ((if d = a then b else [d]) ++ rep a b ds) ++ rep a b l2
    rw [ih, List.append_assoc]

end PreLemmas

/-! ## Claims -/

/-- C1: for every expression whose parsed form references a free identifier
that is neither a key of the per-call evaluation namespace nor one of the two
builtins `abs` and `round`, `evaluate` raises `NameNotAllowed`, and the check
happens before any evaluation of the parsed form; in particular
`evaluate("os.system('x')")` and `evaluate("__import__('os')")` raise
`NameNotAllowed` for every angle mode and every library semantics — nothing is
ever executed. -/
theorem c1_nameNotAllowed_before_eval :
    (∀ (α : Type) [Field α] [DecidableEq α] (M : MathLib α) (mode : AngleMode)
        (s : String) (ast : Ast),
      parse (preprocess s) = some ast →
      (∃ n ∈ coNames ast,
        dictLookup (localNames M mode) n = none ∧ n ≠ "abs" ∧ n ≠ "round") →
      ∃ m ∈ coNames ast,
        dictLookup (localNames M mode) m = none ∧ m ≠ "abs" ∧ m ≠ "round" ∧
        safeEval M s mode = .error (.nameErr m)) ∧
    (∀ (M : MathLib ℚ) (mode : AngleMode),
      safeEval M "os.system('x')" mode = .error (.nameErr "os") ∧
      safeEval M "__import__('os')" mode = .error (.nameErr "__import__")) := by
  constructor
  · intro α _ _ M mode s ast hp hbad
    exact safeEval_nameErr_of_bad M mode s ast hp hbad
  · intro M mode
    cases mode <;> exact ⟨by with_unfolding_all rfl, by with_unfolding_all rfl⟩

/-- Witness for C1 at the concrete input `os.system('x')`. -/
theorem c1_witness :
    ∃ m ∈ coNames (Ast.call (.attrGet (.name "os") "system") [.str "x"]),
      dictLookup (localNames ratLib .rad) m = none ∧ m ≠ "abs" ∧ m ≠ "round" ∧
      safeEval ratLib "os.system('x')" .rad = .error (.nameErr m) :=
  c1_nameNotAllowed_before_eval.1 ℚ ratLib .rad "os.system('x')"
    (Ast.call (.attrGet (.name "os") "system") [.str "x"])
    (by with_unfolding_all rfl)
    ⟨"os", by with_unfolding_all decide, by with_unfolding_all rfl, by decide, by decide⟩

/-- C4: in degree mode the six overlaid trig entries convert arguments from
degrees to radians before the underlying forward function, and convert inverse
results from radians to degrees afterwards; in radian mode all six are the
underlying functions unchanged.  Under the idealized real semantics
`evaluate("sin(90)", Degrees)` and `evaluate("sin(pi/2)", Radians)` are
exactly `1`. -/
theorem c4_angle_mode_trig :
    (∀ (α : Type) [Field α] [DecidableEq α] (M : MathLib α),
      dictLookup (localNames M .deg) "sin" =
        some (.fn1 (fun x => M.sinF (M.radiansF x))) ∧
      dictLookup (localNames M .deg) "cos" =
        some (.fn1 (fun x => M.cosF (M.radiansF x))) ∧
      dictLookup (localNames M .deg) "tan" =
        some (.fn1 (fun x => M.tanF (M.radiansF x))) ∧
      dictLookup (localNames M .deg) "asin" =
        some (.fn1 (fun x => (M.asinF x).map M.degreesF)) ∧
      dictLookup (localNames M .deg) "acos" =
        some (.fn1 (fun x => (M.acosF x).map M.degreesF)) ∧
      dictLookup (localNames M .deg) "atan" =
        some (.fn1 (fun x => (M.atanF x).map M.degreesF)) ∧
      dictLookup (localNames M .rad) "sin" = some (.fn1 M.sinF) ∧
      dictLookup (localNames M .rad) "cos" = some (.fn1 M.cosF) ∧
      dictLookup (localNames M .rad) "tan" = some (.fn1 M.tanF) ∧
      dictLookup (localNames M .rad) "asin" = some (.fn1 M.asinF) ∧
      dictLookup (localNames M .rad) "acos" = some (.fn1 M.acosF) ∧
      dictLookup (localNames M .rad) "atan" = some (.fn1 M.atanF)) ∧
    safeEval realLib "sin(90)" .deg = .ok 1 ∧
    safeEval realLib "sin(pi/2)" .rad = .ok 1 := by
  refine ⟨fun α _ _ M =>
    ⟨rfl, rfl, rfl, rfl, rfl, rfl, rfl, rfl, rfl, rfl, rfl, rfl⟩, ?_, ?_⟩
  · rw [safeEval_eq_evalAst realLib .deg "sin(90)" (.call (.name "sin") [.num 90])
      (by with_unfolding_all rfl) (by with_unfolding_all rfl)]
    rw [evalAst_call1 realLib _ "sin" (fun x => realLib.sinF (realLib.radiansF x))
      (.num 90) ((90:ℚ):ℝ) (by with_unfolding_all rfl) (by with_unfolding_all rfl)]
    show Except.ok (Real.sin (((90:ℚ):ℝ) * (Real.pi / 180))) = .ok 1
    norm_num
    rw [show (90:ℝ) * (Real.pi / 180) = Real.pi / 2 by ring]
    exact Real.sin_pi_div_two
  · rw [safeEval_eq_evalAst realLib .rad "sin(pi/2)"
      (.call (.name "sin") [.div (.name "pi") (.num 2)])
      (by with_unfolding_all rfl) (by with_unfolding_all rfl)]
    have harg : evalAst realLib (localNames realLib .rad) (.div (.name "pi") (.num 2)) =
        .ok (Real.pi / 2) := by
      have hpi : dictLookup (localNames realLib .rad) "pi" = some (.const Real.pi) := by
        with_unfolding_all rfl
      simp only [evalAst, hpi]
      show (if ((2:ℚ):ℝ) = 0 then Except.error EvalErr.zeroDiv
            else Except.ok (Real.pi / ((2:ℚ):ℝ))) = Except.ok (Real.pi / 2)
      rw [if_neg (by norm_num : ¬(((2:ℚ):ℝ)) = 0)]
      norm_num
    rw [evalAst_call1 realLib _ "sin" realLib.sinF _ (Real.pi / 2)
      (by with_unfolding_all rfl) harg]
    show Except.ok (Real.sin (Real.pi / 2)) = .ok 1
    rw [Real.sin_pi_div_two]

/-- C5: `evaluate("1/0")` raises `DivisionByZero` for every angle mode (and
for every library semantics); `DivisionByZero` is presented with its own
dedicated message while every other failure kind gets the generic
`Invalid expression` presentation, so a caller can discriminate it. -/
theorem c5_division_by_zero :
    (∀ (M : MathLib ℚ) (mode : AngleMode), safeEval M "1/0" mode = .error .zeroDiv) ∧
    (∀ mode : AngleMode, safeEval realLib "1/0" mode = .error .zeroDiv) ∧
    errorMessage .zeroDiv = "Division by zero is not allowed." ∧
    (∀ e : EvalErr, e ≠ .zeroDiv →
      errorMessage e = "Invalid expression:\n" ++ errText e) ∧
    (∀ e : EvalErr, e ≠ .zeroDiv → errorMessage e ≠ errorMessage .zeroDiv) := by
  refine ⟨?_, ?_, rfl, ?_, ?_⟩
  · intro M mode
    cases mode <;> with_unfolding_all rfl
  · intro mode
    rw [safeEval_eq_evalAst realLib mode "1/0" (.div (.num 1) (.num 0))
      (by with_unfolding_all rfl) rfl]
    simp only [evalAst]
    show (if ((0:ℚ):ℝ) = 0 then Except.error EvalErr.zeroDiv
          else Except.ok (((1:ℚ):ℝ) / ((0:ℚ):ℝ))) = Except.error EvalErr.zeroDiv
    rw [if_pos (by norm_num)]
  · intro e he
    cases e <;> first | rfl | simp at he
  · intro e he
    have hgen : errorMessage e = "Invalid expression:\n" ++ errText e := by
      cases e <;> first | rfl | simp at he
    rw [hgen]
    exact invalid_ne_divMsg (errText e)

/-- Witness for C5 at the concrete failure kind `synErr`. -/
theorem c5_witness :
    errorMessage .synErr = "Invalid expression:\n" ++ errText .synErr ∧
    errorMessage .synErr ≠ errorMessage .zeroDiv :=
  ⟨c5_division_by_zero.2.2.2.1 .synErr (by decide),
   c5_division_by_zero.2.2.2.2 .synErr (by decide)⟩

/-- C7: calling an allow-listed mathematical function outside its valid input
range raises `DomainError`: `evaluate("sqrt(-1)")` and `evaluate("fact(-1)")`
raise `DomainError` for every angle mode, and `DomainError` is a kind
distinct from the other failure kinds. -/
theorem c7_domain_errors :
    (∀ mode : AngleMode,
      safeEval ratLib "sqrt(-1)" mode = .error (.domainErr "math domain error")) ∧
    (∀ mode : AngleMode,
      safeEval ratLib "fact(-1)" mode =
        .error (.domainErr "factorial() not defined for negative values")) ∧
    (∀ msg : String,
      EvalErr.domainErr msg ≠ .zeroDiv ∧ EvalErr.domainErr msg ≠ .synErr ∧
      (∀ n, EvalErr.domainErr msg ≠ .nameErr n) ∧
      EvalErr.domainErr msg ≠ .overflowErr) := by
  refine ⟨?_, ?_, ?_⟩
  · intro mode
    cases mode <;> with_unfolding_all rfl
  · intro mode
    cases mode <;> with_unfolding_all rfl
  · intro msg
    exact ⟨by simp, by simp, fun n => by simp, by simp⟩

/-- C9: in the allow-list `ln` is bound to the natural logarithm, `log` to the
base-10 logarithm (the explicit alias overriding the `math` module's
natural-log binding of the key `log`), and `fact` to factorial; under the
idealized real semantics `evaluate("log(100)") = 2` and
`evaluate("ln(e)") = 1` for every angle mode. -/
theorem c9_log_aliases :
    (∀ (α : Type) [Field α] [DecidableEq α] (M : MathLib α),
      dictLookup (allowedNames M) "ln" = some (.fn1 M.lnF) ∧
      dictLookup (allowedNames M) "log" = some (.fn1 M.log10F) ∧
      dictLookup (mathEntries M) "log" = some (.fn1 M.lnF) ∧
      dictLookup (allowedNames M) "fact" = some (.fn1 M.factF)) ∧
    (∀ mode : AngleMode, safeEval realLib "log(100)" mode = .ok 2) ∧
    (∀ mode : AngleMode, safeEval realLib "ln(e)" mode = .ok 1) := by
  refine ⟨fun α _ _ M => ⟨rfl, rfl, rfl, rfl⟩, ?_, ?_⟩
  · intro mode
    have hlog : dictLookup (localNames realLib mode) "log" =
        some (.fn1 realLib.log10F) := by
      cases mode <;> with_unfolding_all rfl
    rw [safeEval_eq_evalAst realLib mode "log(100)" (.call (.name "log") [.num 100])
      (by with_unfolding_all rfl) (by cases mode <;> with_unfolding_all rfl)]
    rw [evalAst_call1 realLib _ "log" realLib.log10F (.num 100) ((100:ℚ):ℝ)
      hlog (by with_unfolding_all rfl)]
    show (if ((100:ℚ):ℝ) ≤ 0 then Except.error (EvalErr.domainErr "math domain error")
          else Except.ok (Real.logb 10 ((100:ℚ):ℝ))) = Except.ok 2
    rw [if_neg (by norm_num)]
    norm_num
    rw [show (100:ℝ) = 10 ^ (2:ℕ) by norm_num]
    rw [Real.logb_pow, Real.logb_self_eq_one (by norm_num)]
    norm_num
  · intro mode
    have hln : dictLookup (localNames realLib mode) "ln" =
        some (.fn1 realLib.lnF) := by
      cases mode <;> with_unfolding_all rfl
    rw [safeEval_eq_evalAst realLib mode "ln(e)" (.call (.name "ln") [.name "e"])
      (by with_unfolding_all rfl) (by cases mode <;> with_unfolding_all rfl)]
    rw [evalAst_call1 realLib _ "ln" realLib.lnF (.name "e") (Real.exp 1)
      hln (by cases mode <;> with_unfolding_all rfl)]
    show (if Real.exp 1 ≤ 0 then Except.error (EvalErr.domainErr "math domain error")
          else Except.ok (Real.log (Real.exp 1))) = Except.ok 1
    rw [if_neg (not_le.mpr (Real.exp_pos 1)), Real.log_exp]

/-- C10: the allow-list check covers attribute names: any expression whose
parsed form contains an attribute access with an attribute name outside the
namespace keys and `abs`/`round` fails with `NameNotAllowed` before
evaluation; in particular `evaluate("(1).real")` raises `NameNotAllowed`
instead of returning `1`. -/
theorem c10_attribute_check :
    (∀ (α : Type) [Field α] [DecidableEq α] (M : MathLib α) (mode : AngleMode)
        (s : String) (ast : Ast) (f : String),
      parse (preprocess s) = some ast →
      hasAttrName ast f = true →
      dictLookup (localNames M mode) f = none → f ≠ "abs" → f ≠ "round" →
      ∃ m ∈ coNames ast,
        dictLookup (localNames M mode) m = none ∧ m ≠ "abs" ∧ m ≠ "round" ∧
        safeEval M s mode = .error (.nameErr m)) ∧
    (∀ (M : MathLib ℚ) (mode : AngleMode),
      safeEval M "(1).real" mode = .error (.nameErr "real")) := by
  constructor
  · intro α _ _ M mode s ast f hp hattr h1 h2 h3
    exact safeEval_nameErr_of_bad M mode s ast hp
      ⟨f, hasAttrName_mem_coNames ast f hattr, h1, h2, h3⟩
  · intro M mode
    cases mode <;> with_unfolding_all rfl

/-- Witness for C10 at the concrete input `(1).real`. -/
theorem c10_witness :
    ∃ m ∈ coNames (Ast.attrGet (.num 1) "real"),
      dictLookup (localNames ratLib .rad) m = none ∧ m ≠ "abs" ∧ m ≠ "round" ∧
      safeEval ratLib "(1).real" .rad = .error (.nameErr m) :=
  c10_attribute_check.1 ℚ ratLib .rad "(1).real" (Ast.attrGet (.num 1) "real") "real"
    (by with_unfolding_all rfl) (by with_unfolding_all decide)
    (by with_unfolding_all rfl) (by decide) (by decide)

/-- C2: the preprocessor rewrites a numeric literal followed (up to horizontal
whitespace) by `%` and then (up to horizontal whitespace) by a digit or an
opening parenthesis into `(literal/100)*`, resuming the scan at the lookahead;
consequently `evaluate("10%200", Radians) = 20`, for every library semantics. -/
theorem c2_percent_of_quantity :
    (∀ (lit ws1 ws2 rest : List Char) (c : Char), lit ≠ [] →
        (∀ x ∈ lit, isDigitC x = true) → (∀ x ∈ ws1, isSpaceTab x = true) →
        (∀ x ∈ ws2, isSpaceTab x = true) → isDigitC c = true ∨ c = '(' →
        sub1 (lit ++ (ws1 ++ '%' :: (ws2 ++ c :: rest))) =
          '(' :: (lit ++ repl1Tail ++ sub1 (c :: rest))) ∧
    preprocess "10%200" = "(10/100)*200" ∧
    (∀ M : MathLib ℚ, safeEval M "10%200" AngleMode.rad = .ok 20) := by
  refine ⟨sub1_head_rewrite, rfl, ?_⟩
  intro M
  with_unfolding_all rfl

/-- Witness for C2 at the input `10%200`. -/
theorem c2_witness :
    sub1 ('1' :: '0' :: '%' :: '2' :: '0' :: '0' :: []) =
      '(' :: (('1' :: '0' :: []) ++ repl1Tail ++ sub1 ('2' :: '0' :: '0' :: [])) :=
  c2_percent_of_quantity.1 ['1', '0'] [] [] ['0', '0'] '2' (by decide)
    (by decide) (by decide) (by decide) (Or.inl (by decide))

/-- C3: the second percent rule rewrites a numeric literal followed (up to
whitespace) by `%` into `(literal/100)`, resuming the scan after the percent
sign; consequently `evaluate("50%", Radians) = 1/2`, for every library
semantics. -/
theorem c3_standalone_percent :
    (∀ (lit ws rest : List Char), lit ≠ [] → (∀ x ∈ lit, isDigitC x = true) →
        (∀ x ∈ ws, isPyWs x = true) →
        sub2 (lit ++ (ws ++ '%' :: rest)) =
          '(' :: (lit ++ repl2Tail ++ sub2 rest)) ∧
    preprocess "50%" = "(50/100)" ∧
    (∀ M : MathLib ℚ, safeEval M "50%" AngleMode.rad = .ok (1 / 2)) := by
  refine ⟨sub2_head_rewrite, rfl, ?_⟩
  intro M
  with_unfolding_all rfl

/-- Witness for C3 at the input `50%`. -/
theorem c3_witness :
    sub2 ('5' :: '0' :: '%' :: []) =
      '(' :: (('5' :: '0' :: []) ++ repl2Tail ++ sub2 []) :=
  c3_standalone_percent.1 ['5', '0'] [] [] (by decide) (by decide) (by decide)

/-- C6: the glyph pass replaces every `×` by `*`, every `÷` by `/`, every `^`
by `**` and every `π` by `pi`, in this fixed order; beyond these and the two
percent rules the preprocessor applies no other transformation (it is the
identity on strings containing none of the four glyphs and no percent sign);
consequently `evaluate("2^10", Radians) = 1024`. -/
theorem c6_glyph_rewrites :
    (∀ l1 l2 : List Char, rep '×' ['*'] (l1 ++ '×' :: l2) =
        rep '×' ['*'] l1 ++ '*' :: rep '×' ['*'] l2) ∧
    (∀ l1 l2 : List Char, rep '÷' ['/'] (l1 ++ '÷' :: l2) =
        rep '÷' ['/'] l1 ++ '/' :: rep '÷' ['/'] l2) ∧
    (∀ l1 l2 : List Char, rep '^' ['*', '*'] (l1 ++ '^' :: l2) =
        rep '^' ['*', '*'] l1 ++ '*' :: '*' :: rep '^' ['*', '*'] l2) ∧
    (∀ l1 l2 : List Char, rep 'π' ['p', 'i'] (l1 ++ 'π' :: l2) =
        rep 'π' ['p', 'i'] l1 ++ 'p' :: 'i' :: rep 'π' ['p', 'i'] l2) ∧
    (∀ l : List Char, glyphs l =
        rep 'π' ['p', 'i'] (rep '^' ['*', '*'] (rep '÷' ['/'] (rep '×' ['*'] l)))) ∧
    (∀ s : String, '×' ∉ s.data → '÷' ∉ s.data → '^' ∉ s.data → 'π' ∉ s.data →
        '%' ∉ s.data → preprocess s = s) ∧
    preprocess "2^10" = "2**10" ∧
    safeEval ratLib "2^10" AngleMode.rad = .ok 1024 := by
  refine ⟨?_, ?_, ?_, ?_, fun l => rfl, ?_, rfl, by with_unfolding_all rfl⟩
  · intro l1 l2
    rw [rep_append]
    rfl
  · intro l1 l2
    rw [rep_append]
    rfl
  · intro l1 l2
    rw [rep_append]
    rfl
  · intro l1 l2
    rw [rep_append]
    rfl
  · intro s h1 h2 h3 h4 h5
    have hg : glyphs s.data = s.data := by
      unfold glyphs
      rw [rep_eq_self_of_not_mem h1, rep_eq_self_of_not_mem h2,
        rep_eq_self_of_not_mem h3, rep_eq_self_of_not_mem h4]
    have hst : ∀ l', l' <:+ s.data → r2match l' = none :=
      fun l' hl' => r2match_none_of_no_pct (fun hm => h5 (hl'.subset hm))
    have hs1 : sub1 s.data = s.data :=
      sub1_eq_self_of_stable s.data.length _ le_rfl
        (fun l' hl' => r1match_none_of_r2match_none (hst l' hl'))
    have hs2 : sub2 s.data = s.data :=
      sub2_eq_self_of_stable s.data.length _ le_rfl hst
    show String.mk (sub2 (sub1 (glyphs s.data))) = s
    rw [hg, hs1, hs2]

/-- Witness for C6 on the glyph-free, percent-free input `2+2`. -/
theorem c6_witness : preprocess "2+2" = "2+2" :=
  c6_glyph_rewrites.2.2.2.2.2.1 "2+2" (by decide) (by decide) (by decide)
    (by decide) (by decide)

/-- C8: the whole preprocessor (glyph substitutions followed by the two
percent rewrites in their fixed order) is idempotent on every input string. -/
theorem c8_preprocess_idempotent (s : String) :
    preprocess (preprocess s) = preprocess s := by
  show String.mk (preprocessL (preprocessL s.data)) = String.mk (preprocessL s.data)
  rw [preprocessL_idem]

end CalcCore
